import Mathlib

/-!
Verification of the SmartSpend core against its specification.

The development shallowly embeds the TypeScript source:

* `src/unnamed/part_000` (the `App` component): exchange-rate table, the
  currency-rebase logic of `handleUpdateCurrency`, `handleUpdateTransactions`,
  `handleStartAnalysis`, and the surrounding application state.
* `src/services/geminiService.ts`: `getAIInstance`, `retry`, `recoverJson`,
  `analyzeFinances`, `extractTransactionFromText`.
* `src/unnamed/part_001` (`DataInputScreen`): the category-resolution fallback
  of `handleSmartImport`.

JavaScript `number` values are modelled as rationals (`ℚ`); JavaScript string
operations are modelled on `List Char`.  A JavaScript `throw new Error(msg)`
is modelled as `Except.error msg`.  JSON.parse is embedded as an executable
recursive-descent parser over the JSON grammar (RFC 8259), with number
literals kept exact as a decimal mantissa and exponent pair.
-/

namespace SmartSpend

/-! ## Generic JavaScript string helpers -/

/-- Characters matched by the JavaScript regexp class `\s` and trimmed by
`String.prototype.trim` (restricted to the ASCII range; the sources never
produce the exotic Unicode spaces). -/
def jsWs (c : Char) : Bool :=
  c = ' ' ∨ c = '\t' ∨ c = '\n' ∨ c = '\r' ∨ c = '\x0b' ∨ c = '\x0c'

/-- Whitespace accepted by the JSON grammar (RFC 8259): space, tab, LF, CR. -/
def jsonWs (c : Char) : Bool :=
  c = ' ' ∨ c = '\t' ∨ c = '\n' ∨ c = '\r'

/-- Does the pattern sit at the front of the list?  Backs the substring test
`String.prototype.includes`. -/
def listHasPre : List Char → List Char → Bool
  | _, [] => true
  | [], _ :: _ => false
  | a :: as, b :: bs => a = b && listHasPre as bs

/-- Does the pattern occur anywhere in the list?  (`true` for the empty
pattern, as for JavaScript `includes`.) -/
def listHasSub (pat : List Char) : List Char → Bool
  | [] => pat.isEmpty
  | a :: as => listHasPre (a :: as) pat || listHasSub pat as

/-- JavaScript `s.includes(pat)`. -/
def jsIncludes (s pat : String) : Bool :=
  listHasSub pat.toList s.toList

/-- JavaScript `s.toLowerCase()` (ASCII, which covers every category name the
application uses). -/
def lowerStr (s : String) : String :=
  String.mk (s.toList.map Char.toLower)

/-! ## Data model (`src/types.ts`) -/

/-- The four finance modes of `FinanceMode`. -/
inductive FinanceMode where
  | individual
  | business
  | family
  | trip
deriving DecidableEq, Repr

/-- A `Currency` catalog entry. -/
structure Currency where
  code : String
  symbol : String
  name : String
deriving DecidableEq, Repr

/-- A ledger `Transaction`; `amount` is a JavaScript float modelled as `ℚ`. -/
structure Transaction where
  id : String
  category : String
  amount : ℚ
  description : String
  date : String
deriving DecidableEq, Repr

/-- One `AnalysisResult` anomaly entry. -/
structure Anomaly where
  category : String
  amount : ℚ
  reason : String
  severity : String
deriving DecidableEq, Repr

/-- The `AnalysisResult` record produced by the analysis operation. -/
structure AnalysisResult where
  summary : String
  healthScore : ℚ
  anomalies : List Anomaly
  categoryBreakdown : List (String × ℚ)
  trendAnalysis : List (String × ℚ)
deriving DecidableEq, Repr

/-- A `User` profile owning one ledger. -/
structure User where
  username : String
  mode : FinanceMode
  transactions : List Transaction
  currency : Currency
deriving DecidableEq, Repr

/-! ## Currency rebase engine (`handleUpdateCurrency` in `src/unnamed/part_000`) -/

/-- Lookup in the rate table `rates : Record<string, number>`; `none` models a
missing key (JavaScript `undefined`). -/
def lookupRate (rates : List (String × ℚ)) (code : String) : Option ℚ :=
  (rates.find? (fun p => p.1 = code)).map Prod.snd

/-- The currency conversion performed by `handleUpdateCurrency`: the spec's
`rebase(ledger, fromCurrency, toCurrency, rateTable)`.  `none` models the
guard `!rates[newCurrency.code] || !rates[currentUser.currency.code]`, under
which the handler returns with the ledger untouched — the spec's
`RateUnavailable`.  Note that by JavaScript truthiness the guard also fires
when a stored rate is `0`, not only when it is missing. -/
def rebase (txs : List Transaction) (fromCode toCode : String)
    (rates : List (String × ℚ)) : Option (List Transaction) :=
  match lookupRate rates toCode, lookupRate rates fromCode with
  | some newRate, some oldRate =>
    if newRate = 0 ∨ oldRate = 0 then none
    else some (txs.map fun tx => { tx with amount := tx.amount * (newRate / oldRate) })
  | some _, none => none
  | none, _ => none

/-- The five screens of the `App` component. -/
inductive Screen where
  | auth
  | welcome
  | demo
  | input
  | dashboard
deriving DecidableEq, Repr

/-- The `App` component state relevant to the core: current user, screen,
cached analysis, and the fetched rate table. -/
structure AppState where
  currentUser : Option User
  currentScreen : Screen
  analysis : Option AnalysisResult
  rates : List (String × ℚ)
deriving DecidableEq, Repr

/-- The `handleUpdateCurrency` handler: converts the ledger when the user and
both rates are available (and truthy), clears the cached analysis, and leaves
the dashboard if it was showing. -/
def handleUpdateCurrency (s : AppState) (newCurrency : Currency) : AppState :=
  match s.currentUser with
  | none => s
  | some u =>
    match rebase u.transactions u.currency.code newCurrency.code s.rates with
    | none => s
    | some txs =>
      { s with
        currentUser := some { u with currency := newCurrency, transactions := txs },
        analysis := none,
        currentScreen :=
          if s.currentScreen = Screen.dashboard then Screen.input else s.currentScreen }

/-- The `handleUpdateTransactions` handler: replaces the ledger contents.  It
does not touch the cached analysis. -/
def handleUpdateTransactions (s : AppState) (txs : List Transaction) : AppState :=
  match s.currentUser with
  | none => s
  | some u => { s with currentUser := some { u with transactions := txs } }

/-- The `handleStartAnalysis` handler: stores a fresh analysis and shows the
dashboard. -/
def handleStartAnalysis (s : AppState) (a : AnalysisResult) : AppState :=
  { s with analysis := some a, currentScreen := Screen.dashboard }

/-! ### Concrete sample data used by witnesses and counterexamples -/

/-- A concrete sample transaction. -/
def demoTx : Transaction :=
  { id := "t1", category := "Food", amount := 5, description := "lunch", date := "2024-05-01" }

/-- A concrete one-element ledger. -/
def demoLedger : List Transaction := [demoTx]

/-- A USD/EUR rate table with both rates nonzero (integer rationals so that
concrete witnesses evaluate by kernel reduction). -/
def demoRates : List (String × ℚ) := [("USD", 1), ("EUR", 2)]

/-- A rate table that stores a rate for both codes but a zero rate for EUR. -/
def zeroRates : List (String × ℚ) := [("USD", 1), ("EUR", 0)]

/-- A concrete analysis value. -/
def demoAnalysis : AnalysisResult :=
  { summary := "ok", healthScore := 80, anomalies := [],
    categoryBreakdown := [("Food", 5)], trendAnalysis := [("2024-05-01", 5)] }

/-- A concrete user holding `demoLedger` in USD. -/
def demoUser : User :=
  { username := "alice", mode := FinanceMode.individual,
    transactions := demoLedger,
    currency := { code := "USD", symbol := "$", name := "US Dollar" } }

/-- A concrete app state on the input screen with a cached analysis. -/
def demoState : AppState :=
  { currentUser := some demoUser, currentScreen := Screen.input,
    analysis := some demoAnalysis, rates := demoRates }

/-- The EUR currency entry. -/
def eurCurrency : Currency := { code := "EUR", symbol := "€", name := "Euro" }

/-! ## Theorems for the rebase claims -/

/-- Replacing the amount of a transaction by its own amount is the identity. -/
theorem tx_set_amount_self (tx : Transaction) (q : ℚ) (h : q = tx.amount) :
    { tx with amount := q } = tx := by
  cases tx
  simp_all

/-- C1 (amended): whenever the rate table stores a nonzero rate for both the
source and the target code, `rebase` yields a ledger of the same length in
which the amount at each position is the old amount times
`rate(to) / rate(from)`, while `id`, `category`, `description` and `date` at
each position are unchanged. -/
theorem rebase_scales_amounts (ledger : List Transaction) (fromCode toCode : String)
    (rates : List (String × ℚ)) (rF rT : ℚ)
    (hF : lookupRate rates fromCode = some rF) (hT : lookupRate rates toCode = some rT)
    (hF0 : rF ≠ 0) (hT0 : rT ≠ 0) :
    ∃ l', rebase ledger fromCode toCode rates = some l' ∧
      l'.length = ledger.length ∧
      ∀ (i : ℕ) (hi : i < ledger.length) (hi' : i < l'.length),
        (l'.get ⟨i, hi'⟩).amount = (ledger.get ⟨i, hi⟩).amount * (rT / rF) ∧
        (l'.get ⟨i, hi'⟩).id = (ledger.get ⟨i, hi⟩).id ∧
        (l'.get ⟨i, hi'⟩).category = (ledger.get ⟨i, hi⟩).category ∧
        (l'.get ⟨i, hi'⟩).description = (ledger.get ⟨i, hi⟩).description ∧
        (l'.get ⟨i, hi'⟩).date = (ledger.get ⟨i, hi⟩).date := by
  refine ⟨ledger.map fun tx => { tx with amount := tx.amount * (rT / rF) }, ?_, ?_, ?_⟩
  · simp [rebase, hF, hT, hF0, hT0]
  · simp
  · intro i hi hi'
    simp [List.get_eq_getElem]

/-- Witness for `rebase_scales_amounts` at the USD→EUR sample table. -/
theorem rebase_scales_amounts_witness :
    ∃ l', rebase demoLedger "USD" "EUR" demoRates = some l' ∧
      l'.length = demoLedger.length ∧
      ∀ (i : ℕ) (hi : i < demoLedger.length) (hi' : i < l'.length),
        (l'.get ⟨i, hi'⟩).amount = (demoLedger.get ⟨i, hi⟩).amount * ((2 : ℚ) / 1) ∧
        (l'.get ⟨i, hi'⟩).id = (demoLedger.get ⟨i, hi⟩).id ∧
        (l'.get ⟨i, hi'⟩).category = (demoLedger.get ⟨i, hi⟩).category ∧
        (l'.get ⟨i, hi'⟩).description = (demoLedger.get ⟨i, hi⟩).description ∧
        (l'.get ⟨i, hi'⟩).date = (demoLedger.get ⟨i, hi⟩).date :=
  rebase_scales_amounts demoLedger "USD" "EUR" demoRates 1 2
    (by decide) (by decide) (by decide) (by decide)

/-- C1 counterexample: the claim quantifies over every rate table *containing*
rates for both codes, but with a stored rate of `0` for EUR the JavaScript
truthiness guard refuses the conversion, so no new ledger is produced. -/
theorem rebase_zero_rate_counterexample :
    lookupRate zeroRates "USD" = some 1 ∧
    lookupRate zeroRates "EUR" = some 0 ∧
    rebase demoLedger "USD" "EUR" zeroRates = none := by
  refine ⟨by decide, by decide, by decide⟩

/-- C2 (amended): whenever the rate table stores a nonzero rate for both
codes, rebasing from A to B succeeds with a ledger of the same length, and
rebasing that result back from B to A restores the original ledger exactly
(so in particular within any floating-point tolerance, with no transaction
dropped or duplicated). -/
theorem rebase_roundtrip (ledger : List Transaction) (codeA codeB : String)
    (rates : List (String × ℚ)) (rA rB : ℚ)
    (hA : lookupRate rates codeA = some rA) (hB : lookupRate rates codeB = some rB)
    (hA0 : rA ≠ 0) (hB0 : rB ≠ 0) :
    ∃ l', rebase ledger codeA codeB rates = some l' ∧
      l'.length = ledger.length ∧
      rebase l' codeB codeA rates = some ledger := by
  refine ⟨ledger.map fun tx => { tx with amount := tx.amount * (rB / rA) }, ?_, by simp, ?_⟩
  · simp [rebase, hA, hB, hA0, hB0]
  · have : (ledger.map fun tx => { tx with amount := tx.amount * (rB / rA) }).map
        (fun tx => { tx with amount := tx.amount * (rA / rB) }) = ledger := by
      rw [List.map_map]
      conv_rhs => rw [(List.map_id ledger).symm]
      refine List.map_congr_left (fun tx _ => ?_)
      simp only [Function.comp_apply, List.map_id]
      exact tx_set_amount_self tx _ (by field_simp)
    simp only [rebase, hA, hB, hA0, hB0]
    simp [hA0, hB0, this]

/-- Witness for `rebase_roundtrip` on the concrete USD/EUR table. -/
theorem rebase_roundtrip_witness :
    ∃ l', rebase demoLedger "USD" "EUR" demoRates = some l' ∧
      l'.length = demoLedger.length ∧
      rebase l' "EUR" "USD" demoRates = some demoLedger :=
  rebase_roundtrip demoLedger "USD" "EUR" demoRates 1 2
    (by decide) (by decide) (by decide) (by decide)

/-- C2 counterexample: the claim quantifies over every rate table containing
rates for both codes, but with a stored rate of `0` for EUR the first rebase
is refused outright, so the round trip produces no ledger at all (in the real
code the guard `!rates[code]` treats the `0` rate as unavailable). -/
theorem rebase_roundtrip_counterexample :
    lookupRate zeroRates "USD" = some 1 ∧
    lookupRate zeroRates "EUR" = some 0 ∧
    (rebase demoLedger "USD" "EUR" zeroRates).bind
      (fun l' => rebase l' "EUR" "USD" zeroRates) = none := by
  refine ⟨by decide, by decide, by decide⟩

/-- C3: when the rate table lacks a rate for the source or the target code,
`rebase` is refused (the spec's `RateUnavailable`), and the enclosing
`handleUpdateCurrency` handler leaves the whole application state — in
particular the ledger — untouched. -/
theorem rebase_rate_unavailable (txs : List Transaction) (fromCode toCode : String)
    (rates : List (String × ℚ))
    (h : lookupRate rates fromCode = none ∨ lookupRate rates toCode = none) :
    rebase txs fromCode toCode rates = none ∧
    ∀ (s : AppState) (c : Currency) (u : User),
      s.currentUser = some u → s.rates = rates →
      u.currency.code = fromCode → c.code = toCode →
      handleUpdateCurrency s c = s := by
  have hreb : ∀ txs' : List Transaction, rebase txs' fromCode toCode rates = none := by
    intro txs'
    unfold rebase
    rcases hx : lookupRate rates toCode with _ | rT <;>
      rcases hy : lookupRate rates fromCode with _ | rF <;>
      simp_all
  refine ⟨hreb txs, ?_⟩
  intro s c u hu hr hfrom hto
  have hnone : rebase u.transactions u.currency.code c.code s.rates = none := by
    rw [hfrom, hto, hr]; exact hreb _
  simp [handleUpdateCurrency, hu, hnone]

/-- Witness for `rebase_rate_unavailable`: the demo table has no INR rate, so
converting the demo state to INR is refused and the state is unchanged. -/
theorem rebase_rate_unavailable_witness :
    (rebase demoLedger "USD" "INR" demoRates = none ∧
      ∀ (s : AppState) (c : Currency) (u : User),
        s.currentUser = some u → s.rates = demoRates →
        u.currency.code = "USD" → c.code = "INR" →
        handleUpdateCurrency s c = s) ∧
    handleUpdateCurrency demoState { code := "INR", symbol := "₹", name := "Indian Rupee" }
      = demoState := by
  have h := rebase_rate_unavailable demoLedger "USD" "INR" demoRates (Or.inr (by decide))
  exact ⟨h, h.2 demoState _ demoUser rfl rfl rfl rfl⟩

/-- C10 (amended): a currency change either leaves the state completely
unchanged (when the conversion is refused) or discards the cached analysis;
a contents change through `handleUpdateTransactions` retains the cached
analysis unchanged — the code clears the analysis only on currency changes. -/
theorem analysis_invalidation :
    (∀ (s : AppState) (c : Currency),
      handleUpdateCurrency s c = s ∨ (handleUpdateCurrency s c).analysis = none) ∧
    (∀ (s : AppState) (txs : List Transaction),
      (handleUpdateTransactions s txs).analysis = s.analysis) := by
  constructor
  · intro s c
    rcases hu : s.currentUser with _ | u
    · exact Or.inl (by simp [handleUpdateCurrency, hu])
    · rcases hr : rebase u.transactions u.currency.code c.code s.rates with _ | txs
      · exact Or.inl (by simp [handleUpdateCurrency, hu, hr])
      · exact Or.inr (by simp [handleUpdateCurrency, hu, hr])
  · intro s txs
    rcases hu : s.currentUser with _ | u <;> simp [handleUpdateTransactions, hu]

/-- C10 counterexample: starting from the demo state (which caches an
analysis), replacing the ledger contents genuinely changes the transactions
yet the cached `AnalysisResult` is still present afterwards — it is not
discarded as the claim requires. -/
theorem analysis_retained_counterexample :
    ((handleUpdateTransactions demoState []).currentUser.map User.transactions
        ≠ demoState.currentUser.map User.transactions) ∧
    (handleUpdateTransactions demoState []).analysis = some demoAnalysis := by
  refine ⟨by decide, by decide⟩

/-! ## Backoff retry wrapper (`retry` in `src/services/geminiService.ts`) -/

/-- The rate-limit test of `retry`:
`error.message?.includes("429") || error.message?.includes("RESOURCE_EXHAUSTED")`. -/
def isRateLimitErr (msg : String) : Bool :=
  jsIncludes msg "429" || jsIncludes msg "RESOURCE_EXHAUSTED"

/-- The `retry` wrapper.  The wrapped asynchronous operation is modelled as a
stream `fn : Nat → Except String α` giving the outcome of each successive
invocation; `k` counts the invocations already performed.  The result records
the final outcome, the total number of invocations, and the list of backoff
delays slept (in order), mirroring `await new Promise(... setTimeout(delay))`
followed by `retry(fn, retries - 1, delay * 2)`. -/
def retry (fn : Nat → Except String α) : Nat → Nat → Nat →
    Except String α × Nat × List Nat
  | k, 0, _ =>
    match fn k with
    | .ok a => (.ok a, k + 1, [])
    | .error msg => (.error msg, k + 1, [])
  | k, r + 1, delay =>
    match fn k with
    | .ok a => (.ok a, k + 1, [])
    | .error msg =>
      if isRateLimitErr msg then
        let res := retry fn (k + 1) r (delay * 2)
        (res.1, res.2.1, delay :: res.2.2)
      else (.error msg, k + 1, [])

/-- Unfolding: a successful invocation returns immediately. -/
theorem retry_ok (fn : Nat → Except String α) (k retries delay : Nat) (a : α)
    (h : fn k = .ok a) : retry fn k retries delay = (.ok a, k + 1, []) := by
  rcases retries with _ | r <;> simp [retry, h]

/-- Unfolding: a failure that is not a rate-limit signal, or that arrives with
no attempts left, is propagated after this single invocation. -/
theorem retry_stop (fn : Nat → Except String α) (k retries delay : Nat) (msg : String)
    (h : fn k = .error msg) (hstop : retries = 0 ∨ isRateLimitErr msg = false) :
    retry fn k retries delay = (.error msg, k + 1, []) := by
  rcases hstop with h0 | hrl
  · subst h0; simp [retry, h]
  · rcases retries with _ | r <;> simp [retry, h, hrl]

/-- Unfolding: a rate-limited failure with attempts left sleeps `delay` and
retries with the budget decremented and the delay doubled. -/
theorem retry_step (fn : Nat → Except String α) (k r delay : Nat) (msg : String)
    (h : fn k = .error msg) (hrl : isRateLimitErr msg = true) :
    retry fn k (r + 1) delay =
      ((retry fn (k + 1) r (delay * 2)).1, (retry fn (k + 1) r (delay * 2)).2.1,
        delay :: (retry fn (k + 1) r (delay * 2)).2.2) := by
  conv_lhs => simp [retry, h, hrl]

/-- C4: (1) an operation that fails twice with a rate-limit signal and then
succeeds, run with an attempt budget of 3, returns the success after exactly 3
invocations with backoff delays `d` and `2d`; (2) an operation failing with a
non-rate-limit error is never re-invoked; (3) a budget of 0 performs exactly
one invocation and surfaces its outcome untouched. -/
theorem retry_policy :
    (∀ (α : Type) (a : α) (m0 m1 : String) (d : Nat),
      isRateLimitErr m0 = true → isRateLimitErr m1 = true →
      retry (fun k => if k = 0 then .error m0 else if k = 1 then .error m1 else .ok a) 0 3 d
        = (.ok a, 3, [d, d * 2])) ∧
    (∀ (α : Type) (fn : Nat → Except String α) (msg : String) (retries d : Nat),
      fn 0 = .error msg → isRateLimitErr msg = false →
      retry fn 0 retries d = (.error msg, 1, [])) ∧
    (∀ (α : Type) (fn : Nat → Except String α) (d : Nat),
      retry fn 0 0 d = (fn 0, 1, [])) := by
  refine ⟨?_, ?_, ?_⟩
  · intro α a m0 m1 d h0 h1
    rw [retry_step _ 0 2 d m0 (by simp) h0,
      retry_step _ 1 1 (d * 2) m1 (by simp) h1,
      retry_ok _ 2 1 (d * 2 * 2) a (by simp)]
  · intro α fn msg retries d h hns
    exact retry_stop fn 0 retries d msg h (Or.inr hns)
  · intro α fn d
    rcases h : fn 0 with msg | a
    · rw [retry_stop fn 0 0 d msg h (Or.inl rfl)]
    · rw [retry_ok fn 0 0 d a h]

/-- Witness for `retry_policy`, instantiated with concrete rate-limit
messages, a concrete non-transient operation, and delay 5. -/
theorem retry_policy_witness :
    retry (fun k => if k = 0 then .error "429" else if k = 1 then
        .error "RESOURCE_EXHAUSTED" else .ok (0 : Nat)) 0 3 5
      = (.ok 0, 3, [5, 10]) ∧
    retry (fun _ => .error "boom" : Nat → Except String Nat) 0 3 5
      = (.error "boom", 1, []) ∧
    retry (fun _ => .error "429" : Nat → Except String Nat) 0 0 5
      = (.error "429", 1, []) :=
  ⟨retry_policy.1 Nat 0 "429" "RESOURCE_EXHAUSTED" 5 (by decide) (by decide),
   retry_policy.2.1 Nat _ "boom" 3 5 rfl (by decide),
   retry_policy.2.2 Nat _ 5⟩

/-! ## Category resolver (`handleSmartImport` in `src/unnamed/part_001`) -/

/-- The category-resolution step of `handleSmartImport`
(`src/unnamed/part_001`, lines 94–99): an exact (case-sensitive) membership
test on the AI-returned category wins; otherwise the first allowed category
whose lowercasing *contains* the lowercased returned category is chosen
(`categories.find(c => c.toLowerCase().includes((extracted.category || '').toLowerCase()))`
— note the containment test is one-directional).  `none` models "no
`setActiveSubMode` call": the previously active category is kept. -/
def resolveCategory (returned : Option String) (allowed : List String) : Option String :=
  let cat := returned.getD ""
  if cat ≠ "" ∧ allowed.contains cat then some cat
  else allowed.find? (fun a => jsIncludes (lowerStr a) (lowerStr cat))

/-- The resulting active category: the resolved one, or the previous one if
resolution found nothing. -/
def applyCategory (prev : String) (returned : Option String) (allowed : List String) :
    String :=
  (resolveCategory returned allowed).getD prev

/-- C9 (amended): an exact case-sensitive match wins; otherwise the resolver
returns the first allowed category that case-insensitively *contains* the
returned category (the code's test is one-directional, not bidirectional);
`resolve("Groceries", ["Food", "Rent"])` therefore returns none (not
`"Food"`); and when no category qualifies the resolution is empty and the
previously active category is kept unchanged. -/
theorem resolveCategory_policy :
    (∀ (cat : String) (allowed : List String),
      cat ≠ "" → allowed.contains cat = true →
      resolveCategory (some cat) allowed = some cat) ∧
    (∀ (cat : String) (allowed : List String),
      allowed.contains cat = false →
      resolveCategory (some cat) allowed =
        allowed.find? (fun a => jsIncludes (lowerStr a) (lowerStr cat))) ∧
    (resolveCategory (some "Groceries") ["Food", "Rent"] = none) ∧
    (∀ (cat : String) (allowed : List String),
      resolveCategory (some cat) allowed = none →
      (∀ a ∈ allowed, jsIncludes (lowerStr a) (lowerStr cat) = false) ∧
      ∀ prev, applyCategory prev (some cat) allowed = prev) := by
  refine ⟨?_, ?_, by decide, ?_⟩
  · intro cat allowed h1 h2
    have h2' : cat ∈ allowed := by simpa using h2
    simp [resolveCategory, h1, h2']
  · intro cat allowed h
    have h' : cat ∉ allowed := by simpa using h
    simp [resolveCategory, h']
  · intro cat allowed h
    have hfind : allowed.find? (fun a => jsIncludes (lowerStr a) (lowerStr cat)) = none := by
      by_cases hc : cat ≠ "" ∧ cat ∈ allowed
      · simp [resolveCategory, hc.1, hc.2] at h
      · simpa [resolveCategory, hc] using h
    refine ⟨?_, ?_⟩
    · intro a ha
      simpa using List.find?_eq_none.mp hfind a ha
    · intro prev
      simp [applyCategory, h]

/-- Witness for `resolveCategory_policy`: exact match on a concrete list. -/
theorem resolveCategory_policy_witness :
    resolveCategory (some "Food") ["Food", "Rent"] = some "Food" :=
  resolveCategory_policy.1 "Food" ["Food", "Rent"] (by decide) (by decide)

/-- C9 counterexample: the claim's own example — the claim asserts
`resolve("Groceries", ["Food", "Rent"])` returns `"Food"`, but the code's
one-directional containment test matches nothing, so the resolution is empty
and the active category is left as it was. -/
theorem resolveCategory_counterexample :
    resolveCategory (some "Groceries") ["Food", "Rent"] = none ∧
    applyCategory "Rent" (some "Groceries") ["Food", "Rent"] = "Rent" := by
  refine ⟨by decide, by decide⟩

/-! ## JSON values and `JSON.parse` (used by `recoverJson`)

The embedded parser follows the RFC 8259 grammar that `JSON.parse` accepts.
A number is kept exactly as the signed decimal mantissa and power-of-ten
exponent read from the text (`num m e` denotes `m * 10 ^ e`); this avoids any
floating-point rounding while keeping every operation kernel-computable.
Unicode escapes are mapped through `Char.ofNat`, so an escape denoting half of
a surrogate pair (which Lean's `Char` cannot hold) falls back to `'\x00'`;
none of the verified properties touches that corner. -/

/-- A JSON value. -/
inductive Json where
  | null
  | bool (b : Bool)
  | num (mantissa : ℤ) (exp10 : ℤ)
  | str (s : String)
  | arr (items : List Json)
  | obj (fields : List (String × Json))

/-- Drop the JSON whitespace at the front of the input. -/
def skipWs (l : List Char) : List Char := l.dropWhile jsonWs

/-- Value of a hexadecimal digit. -/
def hexVal (c : Char) : Option Nat :=
  if '0' ≤ c ∧ c ≤ '9' then some (c.toNat - '0'.toNat)
  else if 'a' ≤ c ∧ c ≤ 'f' then some (c.toNat - 'a'.toNat + 10)
  else if 'A' ≤ c ∧ c ≤ 'F' then some (c.toNat - 'A'.toNat + 10)
  else none

/-- The single-character string escapes of JSON. -/
def escMap (c : Char) : Option Char :=
  if c = '"' then some '"'
  else if c = '\\' then some '\\'
  else if c = '/' then some '/'
  else if c = 'b' then some '\x08'
  else if c = 'f' then some '\x0c'
  else if c = 'n' then some '\n'
  else if c = 'r' then some '\r'
  else if c = 't' then some '\t'
  else none

/-- Read one escape sequence (the text after the backslash): either `u` and
four hex digits, or a single escapable character. -/
def readEsc : List Char → Option (Char × List Char)
  | [] => none
  | e :: r =>
    if e = 'u' then
      match r with
      | h1 :: h2 :: h3 :: h4 :: r3 =>
        match hexVal h1, hexVal h2, hexVal h3, hexVal h4 with
        | some a, some b, some cc, some d =>
          some (Char.ofNat (((a * 16 + b) * 16 + cc) * 16 + d), r3)
        | _, _, _, _ => none
      | _ => none
    else (escMap e).map fun ec => (ec, r)

/-- Parse the body of a JSON string, after the opening quote; returns the
decoded characters and the input after the closing quote.  Each step consumes
at least one character, so any fuel beyond the input length is ample. -/
def parseStr : Nat → List Char → Option (List Char × List Char)
  | 0, _ => none
  | _ + 1, [] => none
  | fuel + 1, c :: r =>
    if c = '"' then some ([], r)
    else if c = '\\' then
      match readEsc r with
      | some (ec, r2) => (parseStr fuel r2).map fun p => (ec :: p.1, p.2)
      | none => none
    else if c.toNat < 32 then none
    else (parseStr fuel r).map fun p => (c :: p.1, p.2)

/-- Digits to their decimal value. -/
def digitsToNat (ds : List Char) : Nat :=
  ds.foldl (fun acc c => acc * 10 + (c.toNat - '0'.toNat)) 0

/-- The integer part of a JSON number: `0` or a nonzero digit followed by
digits (a leading zero must not be followed by another digit). -/
def parseIntPart : List Char → Option (List Char × List Char)
  | [] => none
  | c :: r =>
    if c = '0' then
      match r with
      | d :: _ => if d.isDigit then none else some (['0'], r)
      | [] => some (['0'], [])
    else if c.isDigit then some (c :: r.takeWhile Char.isDigit, r.dropWhile Char.isDigit)
    else none

/-- The optional fraction part: `.` followed by at least one digit. -/
def parseFracPart (l : List Char) : Option (List Char × List Char) :=
  match l with
  | [] => some ([], [])
  | c :: r =>
    if c = '.' then
      let ds := r.takeWhile Char.isDigit
      if ds.isEmpty then none else some (ds, r.dropWhile Char.isDigit)
    else some ([], c :: r)

/-- The optional exponent part: `e`/`E`, an optional sign, and at least one
digit; returns (negated?, digits, rest). -/
def parseExpPart (l : List Char) : Option (Bool × List Char × List Char) :=
  match l with
  | [] => some (false, [], [])
  | c :: r =>
    if c = 'e' ∨ c = 'E' then
      match r with
      | [] => none
      | d :: r2 =>
        if d = '+' then
          let ds := r2.takeWhile Char.isDigit
          if ds.isEmpty then none else some (false, ds, r2.dropWhile Char.isDigit)
        else if d = '-' then
          let ds := r2.takeWhile Char.isDigit
          if ds.isEmpty then none else some (true, ds, r2.dropWhile Char.isDigit)
        else
          let ds := (d :: r2).takeWhile Char.isDigit
          if ds.isEmpty then none
          else some (false, ds, (d :: r2).dropWhile Char.isDigit)
    else some (false, [], c :: r)

/-- Parse a JSON number (the only value form not introduced by a keyword or
bracket), read exactly into mantissa/exponent form. -/
def parseNum (l : List Char) : Option (Json × List Char) :=
  match l with
  | [] => none
  | c :: rest =>
    let body := if c = '-' then rest else c :: rest
    match parseIntPart body with
    | none => none
    | some (ids, r1) =>
      match parseFracPart r1 with
      | none => none
      | some (fds, r2) =>
        match parseExpPart r2 with
        | none => none
        | some (esign, eds, r3) =>
          let mag : ℤ := (digitsToNat (ids ++ fds) : ℤ)
          let mant : ℤ := if c = '-' then -mag else mag
          let e10 : ℤ :=
            (if esign then -(digitsToNat eds : ℤ) else (digitsToNat eds : ℤ))
              - (fds.length : ℤ)
          some (Json.num mant e10, r3)

mutual

/-- Parse one JSON value at the head of the input (no leading whitespace);
`fuel` bounds the recursion depth and is chosen ample by `parseJson`. -/
def parseVal : Nat → List Char → Option (Json × List Char)
  | 0, _ => none
  | fuel + 1, l =>
    match l with
    | 'n' :: 'u' :: 'l' :: 'l' :: r => some (Json.null, r)
    | 't' :: 'r' :: 'u' :: 'e' :: r => some (Json.bool true, r)
    | 'f' :: 'a' :: 'l' :: 's' :: 'e' :: r => some (Json.bool false, r)
    | '"' :: r => (parseStr (r.length + 1) r).map fun p => (Json.str (String.mk p.1), p.2)
    | '[' :: r =>
      match skipWs r with
      | ']' :: r2 => some (Json.arr [], r2)
      | r1 => (parseItems fuel r1).map fun p => (Json.arr p.1, p.2)
    | '\x7b' :: r =>
      match skipWs r with
      | '\x7d' :: r2 => some (Json.obj [], r2)
      | r1 => (parseFields fuel r1).map fun p => (Json.obj p.1, p.2)
    | _ => parseNum l

/-- Parse the elements of a non-empty array, up to and including the closing
bracket. -/
def parseItems : Nat → List Char → Option (List Json × List Char)
  | 0, _ => none
  | fuel + 1, l =>
    match parseVal fuel l with
    | none => none
    | some (j, r) =>
      match skipWs r with
      | ',' :: r2 =>
        match parseItems fuel (skipWs r2) with
        | none => none
        | some (xs, r3) => some (j :: xs, r3)
      | ']' :: r2 => some ([j], r2)
      | _ => none

/-- Parse the members of a non-empty object, up to and including the closing
brace. -/
def parseFields : Nat → List Char → Option (List (String × Json) × List Char)
  | 0, _ => none
  | fuel + 1, l =>
    match l with
    | '"' :: r =>
      match parseStr (r.length + 1) r with
      | none => none
      | some (k, r1) =>
        match skipWs r1 with
        | ':' :: r2 =>
          match parseVal fuel (skipWs r2) with
          | none => none
          | some (v, r3) =>
            match skipWs r3 with
            | ',' :: r4 =>
              match parseFields fuel (skipWs r4) with
              | none => none
              | some (fs, r5) => some ((String.mk k, v) :: fs, r5)
            | '\x7d' :: r4 => some ([(String.mk k, v)], r4)
            | _ => none
        | _ => none
    | _ => none

end

/-- The embedding of `JSON.parse`: skip surrounding whitespace and accept
exactly one value.  The fuel `2 * length + 2` is ample: by
`parseVal_liberal_fuel` a parse that succeeds with any fuel succeeds with any
fuel of at least twice the consumed input plus one. -/
def parseJson (l : List Char) : Option Json :=
  let l1 := skipWs l
  match parseVal (2 * l1.length + 2) l1 with
  | some (j, r) => if (skipWs r).isEmpty then some j else none
  | none => none

/-! ## `recoverJson` (`src/services/geminiService.ts`) -/

/-- The trailing-comma repair
`jsonSnippet.replace(/,\s*([\}\]])/g, '$1')`: a comma followed by whitespace
and a closing brace or bracket is replaced by that closer, scanning left to
right without rescanning replacements. -/
def fixCommasF : Nat → List Char → List Char
  | 0, l => l
  | _ + 1, [] => []
  | fuel + 1, c :: r =>
    if c = ',' then
      match r.dropWhile jsWs with
      | d :: r3 =>
        if d = '\x7d' ∨ d = ']' then d :: fixCommasF fuel r3 else ',' :: fixCommasF fuel r
      | [] => ',' :: fixCommasF fuel r
    else c :: fixCommasF fuel r

/-- The trailing-comma repair entry point, with ample fuel (each step of
`fixCommasF` consumes at least one character). -/
def fixCommas (l : List Char) : List Char := fixCommasF l.length l

/-- Remove every occurrence of the literal pattern `pat` from `l`, scanning
left to right (JavaScript `replace(/pat/g, "")` for a literal pattern). -/
def removeAllF (pat : List Char) : Nat → List Char → List Char
  | 0, l => l
  | _ + 1, [] => []
  | fuel + 1, c :: r =>
    if listHasPre (c :: r) pat then removeAllF pat fuel (r.drop (pat.length - 1))
    else c :: removeAllF pat fuel r

/-- Removal entry point, with ample fuel (each step of `removeAllF` consumes
at least one character; the patterns used are never empty). -/
def removeAll (pat : List Char) (l : List Char) : List Char := removeAllF pat l.length l

/-- The characters of the fence marker `\x60\x60\x60json`. -/
def fenceJson : List Char := ['\x60', '\x60', '\x60', 'j', 's', 'o', 'n']

/-- The characters of the bare fence marker `\x60\x60\x60`. -/
def fenceBare : List Char := ['\x60', '\x60', '\x60']

/-- The fence-stripping step of `recoverJson`:
`text.replace(/\x60\x60\x60json/g, "").replace(/\x60\x60\x60/g, "")`. -/
def stripFences (l : List Char) : List Char :=
  removeAll fenceBare (removeAll fenceJson l)

/-- JavaScript `String.prototype.trim` on a character list. -/
def jsTrim (l : List Char) : List Char :=
  ((l.dropWhile jsWs).reverse.dropWhile jsWs).reverse

/-- Index of the first occurrence of `c` (JavaScript `indexOf`), `none` for
`-1`. -/
def firstIdx (l : List Char) (c : Char) : Option Nat :=
  l.findIdx? (fun x => x = c)

/-- Index of the last occurrence of `c` (JavaScript `lastIndexOf`), `none`
for `-1`. -/
def lastIdx (l : List Char) (c : Char) : Option Nat :=
  (l.reverse.findIdx? (fun x => x = c)).map (fun i => l.length - 1 - i)

/-- The `recoverJson` routine: fail on the empty text, strip fences and trim,
try a direct parse, and otherwise extract the first-`\x7b`-to-last-`\x7d` span,
repair trailing commas, and re-parse; errors carry the thrown message. -/
def recoverJson (text : String) : Except String Json :=
  if text = "" then .error "EMPTY_RESPONSE"
  else
    let cleaned := jsTrim (stripFences text.toList)
    match parseJson cleaned with
    | some v => .ok v
    | none =>
      match firstIdx cleaned '\x7b', lastIdx cleaned '\x7d' with
      | some s, some e =>
        if s < e then
          match parseJson (fixCommas ((cleaned.drop s).take (e + 1 - s))) with
          | some v => .ok v
          | none => .error "MALFORMED_DATA"
        else .error "NO_DATA_FOUND"
      | some _, none => .error "NO_DATA_FOUND"
      | none, _ => .error "NO_DATA_FOUND"

/-! ## Utility lemmas on `takeWhile` / `dropWhile` -/

/-- The head surviving `dropWhile` falsifies the predicate. -/
theorem dropWhile_head_false {p : Char → Bool} {l : List Char} {c : Char} {r : List Char}
    (h : l.dropWhile p = c :: r) : p c = false := by
  induction l with
  | nil => simp at h
  | cons a as ih =>
    rw [List.dropWhile_cons] at h
    by_cases hp : p a
    · rw [if_pos hp] at h; exact ih h
    · rw [if_neg hp] at h; cases h; simpa using hp

/-- Dropping over a fully-satisfying block continues behind it. -/
theorem dropWhile_append_all {p : Char → Bool} {a : List Char} (b : List Char)
    (h : a.all p) : (a ++ b).dropWhile p = b.dropWhile p := by
  induction a with
  | nil => rfl
  | cons x xs ih =>
    simp only [List.all_cons, Bool.and_eq_true] at h
    simp [List.dropWhile_cons, h.1, ih h.2]

/-- Taking over a fully-satisfying block continues behind it. -/
theorem takeWhile_append_all {p : Char → Bool} {a : List Char} (b : List Char)
    (h : a.all p) : (a ++ b).takeWhile p = a ++ b.takeWhile p := by
  induction a with
  | nil => rfl
  | cons x xs ih =>
    simp only [List.all_cons, Bool.and_eq_true] at h
    simp [List.takeWhile_cons, h.1, ih h.2]

/-- `dropWhile` stops at a falsifying head. -/
theorem dropWhile_cons_false {p : Char → Bool} {c : Char} (r : List Char)
    (h : p c = false) : (c :: r).dropWhile p = c :: r := by
  simp [List.dropWhile_cons, h]

/-- `takeWhile` stops at a falsifying head. -/
theorem takeWhile_cons_false {p : Char → Bool} {c : Char} (r : List Char)
    (h : p c = false) : (c :: r).takeWhile p = [] := by
  simp [List.takeWhile_cons, h]

/-- `dropWhile` over a satisfying block followed by a falsifying head. -/
theorem dropWhile_append_stop {p : Char → Bool} {a : List Char} {c : Char} (b : List Char)
    (ha : a.all p) (hc : p c = false) : (a ++ c :: b).dropWhile p = c :: b := by
  rw [dropWhile_append_all _ ha, dropWhile_cons_false _ hc]

/-- `takeWhile` over a satisfying block followed by a falsifying head. -/
theorem takeWhile_append_stop {p : Char → Bool} {a : List Char} {c : Char} (b : List Char)
    (ha : a.all p) (hc : p c = false) : (a ++ c :: b).takeWhile p = a := by
  rw [takeWhile_append_all _ ha, takeWhile_cons_false _ hc, List.append_nil]

/-! ## Structure of the leaf parsers

Each lemma decomposes a successful parse as `input = consumed ++ rest` and
states that the same parse goes through unchanged when the rest is replaced by
an arbitrary extension (with, for the number parser, the proviso that the
extension must not begin with a character that could extend a number token).
These are the locality facts behind the `recoverJson` properties. -/

/-- Characters that could extend a JSON number token to the right. -/
def numExtChar (c : Char) : Bool :=
  c.isDigit ∨ c = '.' ∨ c = 'e' ∨ c = 'E'

/-- An extension is safe after a number when it is empty or starts with a
character that cannot extend a number token. -/
def goodExt : List Char → Bool
  | [] => true
  | c :: _ => !numExtChar c

/-- Characters that can begin a JSON value. -/
def valStart (c : Char) : Bool :=
  c = 'n' ∨ c = 't' ∨ c = 'f' ∨ c = '"' ∨ c = '[' ∨ c = '\x7b' ∨ c = '-' ∨ c.isDigit

/-- A digit is not JSON whitespace. -/
theorem digit_not_jsonWs {c : Char} (h : c.isDigit = true) : jsonWs c = false := by
  simp only [Char.isDigit, Bool.and_eq_true, decide_eq_true_eq] at h
  simp only [jsonWs]
  refine decide_eq_false_iff_not.mpr ?_
  rintro (rfl | rfl | rfl | rfl) <;> revert h <;> decide

/-- A digit is not JavaScript whitespace. -/
theorem digit_not_jsWs {c : Char} (h : c.isDigit = true) : jsWs c = false := by
  simp only [Char.isDigit, Bool.and_eq_true, decide_eq_true_eq] at h
  simp only [jsWs]
  refine decide_eq_false_iff_not.mpr ?_
  rintro (rfl | rfl | rfl | rfl | rfl | rfl) <;> revert h <;> decide

/-- A value-starting character is not JSON whitespace. -/
theorem valStart_not_jsonWs {c : Char} (h : valStart c = true) : jsonWs c = false := by
  simp only [valStart, decide_eq_true_eq] at h
  rcases h with rfl | rfl | rfl | rfl | rfl | rfl | rfl | h
  · rfl
  · rfl
  · rfl
  · rfl
  · rfl
  · rfl
  · rfl
  · exact digit_not_jsonWs h

/-- A value-starting character is not JavaScript whitespace either. -/
theorem valStart_not_jsWs {c : Char} (h : valStart c = true) : jsWs c = false := by
  simp only [valStart, decide_eq_true_eq] at h
  rcases h with rfl | rfl | rfl | rfl | rfl | rfl | rfl | h
  · rfl
  · rfl
  · rfl
  · rfl
  · rfl
  · rfl
  · rfl
  · exact digit_not_jsWs h

/-- Appending to the left preserves a known last element. -/
theorem getLast?_append_right {α : Type} {b : List α} (a : List α) {x : α}
    (hb : b.getLast? = some x) : (a ++ b).getLast? = some x := by
  have hbne : b ≠ [] := by intro h; rw [h] at hb; simp at hb
  rw [List.getLast?_append_of_ne_nil a hbne]
  exact hb

/-- Unfolding: the `u`-escape branch of `readEsc` (definitional). -/
theorem readEsc_u (x1 x2 x3 x4 : Char) (r3 : List Char) :
    readEsc ('u' :: x1 :: x2 :: x3 :: x4 :: r3)
      = match hexVal x1, hexVal x2, hexVal x3, hexVal x4 with
        | some a, some b, some cc, some d =>
          some (Char.ofNat (((a * 16 + b) * 16 + cc) * 16 + d), r3)
        | _, _, _, _ => none := rfl

/-- Unfolding: `parseStr` at a closing quote (definitional). -/
theorem parseStr_quote (fuel : Nat) (r : List Char) :
    parseStr (fuel + 1) ('"' :: r) = some ([], r) := rfl

/-- Unfolding: `parseStr` at a backslash (definitional). -/
theorem parseStr_esc (fuel : Nat) (r : List Char) :
    parseStr (fuel + 1) ('\\' :: r)
      = match readEsc r with
        | some (ec, r2) => (parseStr fuel r2).map fun p => (ec :: p.1, p.2)
        | none => none := rfl

/-- Unfolding: `parseStr` at a backslash whose escape reads successfully. -/
theorem parseStr_esc_some (fuel : Nat) (r : List Char) (ec : Char) (r2 : List Char)
    (hre : readEsc r = some (ec, r2)) :
    parseStr (fuel + 1) ('\\' :: r) = (parseStr fuel r2).map fun p => (ec :: p.1, p.2) := by
  rw [parseStr_esc, hre]

/-- Unfolding: `parseStr` at a backslash whose escape fails to read. -/
theorem parseStr_esc_none (fuel : Nat) (r : List Char) (hre : readEsc r = none) :
    parseStr (fuel + 1) ('\\' :: r) = none := by
  rw [parseStr_esc, hre]

/-- Unfolding: `parseStr` at an ordinary character. -/
theorem parseStr_other (fuel : Nat) (c : Char) (r : List Char) (hq : ¬c = '"')
    (hb : ¬c = '\\') (hctl : ¬c.toNat < 32) :
    parseStr (fuel + 1) (c :: r) = (parseStr fuel r).map fun p => (c :: p.1, p.2) := by
  simp only [parseStr, if_neg hq, if_neg hb, if_neg hctl]

/-- Structure of a successful escape read: the consumed part is nonempty and
the read is insensitive to what follows it. -/
theorem readEsc_structure {l : List Char} {ec : Char} {r : List Char}
    (h : readEsc l = some (ec, r)) :
    ∃ c, l = c ++ r ∧ c ≠ [] ∧ ∀ ext, readEsc (c ++ ext) = some (ec, ext) := by
  cases l with
  | nil => simp [readEsc] at h
  | cons e rest =>
    by_cases hu : e = 'u'
    · subst hu
      rcases rest with _ | ⟨x1, rest⟩
      · simp [readEsc] at h
      rcases rest with _ | ⟨x2, rest⟩
      · simp [readEsc] at h
      rcases rest with _ | ⟨x3, rest⟩
      · simp [readEsc] at h
      rcases rest with _ | ⟨x4, rest⟩
      · simp [readEsc] at h
      rcases hx1 : hexVal x1 with _ | a <;> rcases hx2 : hexVal x2 with _ | b <;>
        rcases hx3 : hexVal x3 with _ | cc <;> rcases hx4 : hexVal x4 with _ | d <;>
        simp only [readEsc_u, hx1, hx2, hx3, hx4, Option.some.injEq,
          Prod.mk.injEq, reduceCtorEq] at h
      obtain ⟨hec, hr⟩ := h
      subst hec; subst hr
      exact ⟨['u', x1, x2, x3, x4], rfl, by simp,
        fun ext => by simp [readEsc_u, hx1, hx2, hx3, hx4]⟩
    · simp only [readEsc, if_neg hu, Option.map_eq_some'] at h
      obtain ⟨ec', hesc, heq⟩ := h
      simp only [Prod.mk.injEq] at heq
      obtain ⟨hec, hr⟩ := heq
      subst hec; subst hr
      exact ⟨[e], rfl, by simp, fun ext => by simp [readEsc, hu, hesc]⟩

/-- Structure of a successful string-body parse: the consumed part ends with
the closing quote and the parse is insensitive both to what follows the
closing quote and to the exact fuel, provided it exceeds the consumed
length. -/
theorem parseStr_structure :
    ∀ (fuel : Nat) (l s r : List Char), parseStr fuel l = some (s, r) →
    ∃ c : List Char, l = c ++ r ∧ c.getLast? = some '"' ∧
      ∀ g ext, c.length + 1 ≤ g → parseStr g (c ++ ext) = some (s, ext) := by
  intro fuel
  induction fuel with
  | zero =>
    intro l s r h
    simp [parseStr] at h
  | succ fuel ih =>
    intro l s r h
    cases l with
    | nil => simp [parseStr] at h
    | cons c rest =>
      by_cases hq : c = '"'
      · subst hq
        rw [parseStr_quote] at h
        simp only [Option.some.injEq, Prod.mk.injEq] at h
        obtain ⟨hs, hr⟩ := h
        subst hs; subst hr
        refine ⟨['"'], rfl, rfl, ?_⟩
        intro g ext hg
        rcases g with _ | g
        · omega
        · exact parseStr_quote g ext
      · by_cases hb : c = '\\'
        · subst hb
          rcases hre : readEsc rest with _ | ⟨ec, r2⟩
          · rw [parseStr_esc_none fuel rest hre] at h; simp at h
          · rw [parseStr_esc_some fuel rest ec r2 hre] at h
            rcases hps : parseStr fuel r2 with _ | ⟨s', r'⟩ <;> rw [hps] at h <;>
              simp only [Option.map_none', Option.map_some', Option.some.injEq,
                Prod.mk.injEq, reduceCtorEq] at h
            obtain ⟨hs, hr⟩ := h
            subst hs; subst hr
            obtain ⟨c3, hdec3, hlast3, hext3⟩ := ih _ _ _ hps
            obtain ⟨cE, hdecE, hEne, hextE⟩ := readEsc_structure hre
            refine ⟨'\\' :: (cE ++ c3), ?_, ?_, ?_⟩
            · simp [hdecE, hdec3, List.append_assoc]
            · rw [show '\\' :: (cE ++ c3) = ('\\' :: cE) ++ c3 by simp]
              exact getLast?_append_right _ hlast3
            · intro g ext hg
              rcases g with _ | g
              · simp at hg
              · have hlen : c3.length + 1 ≤ g := by
                  rcases cE with _ | ⟨y, ys⟩
                  · exact absurd rfl hEne
                  · simp only [List.length_cons, List.length_append] at hg ⊢
                    omega
                rw [show ('\\' :: (cE ++ c3)) ++ ext = '\\' :: (cE ++ (c3 ++ ext)) by simp]
                rw [parseStr_esc_some g (cE ++ (c3 ++ ext)) ec (c3 ++ ext) (hextE (c3 ++ ext)),
                  hext3 g ext hlen]
                rfl
        · by_cases hctl : c.toNat < 32
          · simp [parseStr, hq, hb, hctl] at h
          · rw [parseStr_other fuel c rest hq hb hctl] at h
            rcases hps : parseStr fuel rest with _ | ⟨s', r'⟩ <;> rw [hps] at h <;>
              simp only [Option.map_none', Option.map_some', Option.some.injEq,
                Prod.mk.injEq, reduceCtorEq] at h
            obtain ⟨hs, hr⟩ := h
            subst hs; subst hr
            obtain ⟨c3, hdec3, hlast3, hext3⟩ := ih _ _ _ hps
            refine ⟨c :: c3, by simp [hdec3], ?_, ?_⟩
            · exact getLast?_append_right [c] hlast3
            · intro g ext hg
              rcases g with _ | g
              · simp at hg
              · have hlen : c3.length + 1 ≤ g := by
                  simp only [List.length_cons] at hg; omega
                rw [show (c :: c3) ++ ext = c :: (c3 ++ ext) by simp]
                rw [parseStr_other g c (c3 ++ ext) hq hb hctl, hext3 g ext hlen]
                rfl

/-! ## Structure of the number parser -/

/-- The head of the list, if any, falsifies the predicate. -/
def headNot (p : Char → Bool) : List Char → Bool
  | [] => true
  | c :: _ => !p c

/-- A good extension has no digit at its head. -/
theorem goodExt_headNot_digit {ext : List Char} (h : goodExt ext = true) :
    headNot Char.isDigit ext = true := by
  cases ext with
  | nil => rfl
  | cons c r =>
    simp only [goodExt, numExtChar, Bool.not_eq_true'] at h
    simp only [headNot, Bool.not_eq_true']
    rcases hd : c.isDigit
    · rfl
    · rw [hd] at h; simp at h

/-- A good extension does not begin with a dot. -/
theorem goodExt_headNot_dot {ext : List Char} (h : goodExt ext = true) :
    headNot (fun c => c = '.') ext = true := by
  cases ext with
  | nil => rfl
  | cons c r =>
    simp only [goodExt, numExtChar, Bool.not_eq_true'] at h
    simp only [headNot, Bool.not_eq_true', decide_eq_false_iff_not]
    intro hdot
    subst hdot
    simp at h

/-- A good extension does not begin with an exponent marker. -/
theorem goodExt_headNot_exp {ext : List Char} (h : goodExt ext = true) :
    headNot (fun c => c = 'e' ∨ c = 'E') ext = true := by
  cases ext with
  | nil => rfl
  | cons c r =>
    simp only [goodExt, numExtChar, Bool.not_eq_true'] at h
    simp only [headNot, Bool.not_eq_true', decide_eq_false_iff_not]
    rintro (hdot | hdot) <;> (subst hdot; simp at h)

/-- `takeWhile` over a satisfying block followed by a blocked tail. -/
theorem takeWhile_append_headNot {p : Char → Bool} {a : List Char} (b : List Char)
    (ha : a.all p) (hb : headNot p b = true) : (a ++ b).takeWhile p = a := by
  cases b with
  | nil =>
    rw [List.append_nil]
    induction a with
    | nil => rfl
    | cons x xs ih =>
      simp only [List.all_cons, Bool.and_eq_true] at ha
      simp [List.takeWhile_cons, ha.1, ih ha.2]
  | cons c r =>
    simp only [headNot, Bool.not_eq_true'] at hb
    exact takeWhile_append_stop r ha hb

/-- `dropWhile` over a satisfying block followed by a blocked tail. -/
theorem dropWhile_append_headNot {p : Char → Bool} {a : List Char} (b : List Char)
    (ha : a.all p) (hb : headNot p b = true) : (a ++ b).dropWhile p = b := by
  cases b with
  | nil =>
    rw [List.append_nil]
    induction a with
    | nil => rfl
    | cons x xs ih =>
      simp only [List.all_cons, Bool.and_eq_true] at ha
      simp [List.dropWhile_cons, ha.1, ih ha.2]
  | cons c r =>
    simp only [headNot, Bool.not_eq_true'] at hb
    exact dropWhile_append_stop r ha hb

/-- Unfolding: `parseIntPart` at a leading zero (definitional). -/
theorem parseIntPart_zero (r : List Char) :
    parseIntPart ('0' :: r)
      = match r with
        | d :: _ => if d.isDigit then none else some (['0'], r)
        | [] => some (['0'], []) := rfl

/-- Structure of a successful integer-part parse: the digits are consumed and
the parse is insensitive to a replacement tail that does not start with a
digit. -/
theorem parseIntPart_structure {l ids r : List Char}
    (h : parseIntPart l = some (ids, r)) :
    l = ids ++ r ∧ ids ≠ [] ∧ ids.all Char.isDigit = true ∧
      ∀ r', headNot Char.isDigit r' = true → parseIntPart (ids ++ r') = some (ids, r') := by
  cases l with
  | nil => simp [parseIntPart] at h
  | cons c rest =>
    by_cases h0 : c = '0'
    · subst h0
      rw [parseIntPart_zero] at h
      have hids : ids = ['0'] ∧ r = rest := by
        cases rest with
        | nil =>
          simp only [Option.some.injEq, Prod.mk.injEq] at h
          exact ⟨h.1.symm, h.2.symm⟩
        | cons d rest' =>
          replace h : (if d.isDigit then (none : Option (List Char × List Char))
              else some (['0'], d :: rest')) = some (ids, r) := h
          by_cases hd : d.isDigit
          · rw [if_pos hd] at h; simp at h
          · rw [if_neg hd] at h
            simp only [Option.some.injEq, Prod.mk.injEq] at h
            exact ⟨h.1.symm, h.2.symm⟩
      obtain ⟨hids1, hr⟩ := hids
      subst hids1; subst hr
      refine ⟨rfl, by simp, by simp, ?_⟩
      intro r' hr'
      cases r' with
      | nil => rfl
      | cons d rest' =>
        simp only [headNot, Bool.not_eq_true'] at hr'
        show (if d.isDigit then (none : Option (List Char × List Char))
            else some (['0'], d :: rest')) = some (['0'], d :: rest')
        rw [if_neg (by simp [hr'])]
    · by_cases hdig : c.isDigit
      · have hunf : parseIntPart (c :: rest)
            = some (c :: rest.takeWhile Char.isDigit, rest.dropWhile Char.isDigit) := by
          cases rest with
          | nil => simp [parseIntPart, h0, hdig]
          | cons d rest' => simp [parseIntPart, h0, hdig]
        rw [hunf] at h
        simp only [Option.some.injEq, Prod.mk.injEq] at h
        obtain ⟨hids, hr⟩ := h
        subst hids; subst hr
        refine ⟨by simp [List.takeWhile_append_dropWhile], by simp, ?_, ?_⟩
        · simp [List.all_cons, hdig, List.all_takeWhile]
        · intro r' hr'
          have hunf2 : parseIntPart (c :: (rest.takeWhile Char.isDigit ++ r'))
              = some (c :: (rest.takeWhile Char.isDigit ++ r').takeWhile Char.isDigit,
                  (rest.takeWhile Char.isDigit ++ r').dropWhile Char.isDigit) := by
            cases htw : rest.takeWhile Char.isDigit ++ r' with
            | nil => simp [parseIntPart, h0, hdig]
            | cons d rest' => simp [parseIntPart, h0, hdig]
          rw [show (c :: rest.takeWhile Char.isDigit) ++ r'
              = c :: (rest.takeWhile Char.isDigit ++ r') by rfl, hunf2,
            takeWhile_append_headNot r' List.all_takeWhile hr',
            dropWhile_append_headNot r' List.all_takeWhile hr']
      · simp [parseIntPart, h0, hdig] at h

/-- A digit is none of the number punctuation characters. -/
theorem digit_ne_punct {c : Char} (h : c.isDigit = true) :
    c ≠ '+' ∧ c ≠ '-' ∧ c ≠ '.' ∧ c ≠ 'e' ∧ c ≠ 'E' := by
  refine ⟨?_, ?_, ?_, ?_, ?_⟩ <;> (intro he; subst he; exact absurd h (by decide))

/-- Structure of a successful fraction-part parse. -/
theorem parseFracPart_structure {l fds r : List Char}
    (h : parseFracPart l = some (fds, r)) :
    ∃ fc, l = fc ++ r ∧
      ((fc = [] ∧ fds = []) ∨
        (fc = '.' :: fds ∧ fds ≠ [] ∧ fds.all Char.isDigit = true)) ∧
      ∀ r', headNot Char.isDigit r' = true → headNot (fun c => c = '.') r' = true →
        parseFracPart (fc ++ r') = some (fds, r') := by
  have hext_absent : ∀ r', headNot (fun c => c = '.') r' = true →
      parseFracPart r' = some ([], r') := by
    intro r' hdot
    cases r' with
    | nil => rfl
    | cons d rest' =>
      simp only [headNot, Bool.not_eq_true', decide_eq_false_iff_not] at hdot
      simp [parseFracPart, hdot]
  cases l with
  | nil =>
    simp only [parseFracPart, Option.some.injEq, Prod.mk.injEq] at h
    obtain ⟨h1, h2⟩ := h
    subst h1; subst h2
    exact ⟨[], rfl, Or.inl ⟨rfl, rfl⟩, fun r' _ hdot => hext_absent r' hdot⟩
  | cons c rest =>
    by_cases hc : c = '.'
    · subst hc
      rcases hds : rest.takeWhile Char.isDigit with _ | ⟨d0, tw⟩
      · rw [show parseFracPart ('.' :: rest)
            = (if (rest.takeWhile Char.isDigit).isEmpty then none
               else some (rest.takeWhile Char.isDigit, rest.dropWhile Char.isDigit))
            from by simp [parseFracPart], hds] at h
        simp at h
      · rw [show parseFracPart ('.' :: rest)
            = (if (rest.takeWhile Char.isDigit).isEmpty then none
               else some (rest.takeWhile Char.isDigit, rest.dropWhile Char.isDigit))
            from by simp [parseFracPart], hds] at h
        simp only [List.isEmpty_cons, Bool.false_eq_true, if_false, Option.some.injEq,
          Prod.mk.injEq] at h
        obtain ⟨h1, h2⟩ := h
        subst h1; subst h2
        refine ⟨'.' :: (d0 :: tw), ?_, Or.inr ⟨rfl, by simp, ?_⟩, ?_⟩
        · have := List.takeWhile_append_dropWhile (p := Char.isDigit) (l := rest)
          rw [hds] at this
          conv_lhs => rw [this.symm]
          simp
        · rw [hds.symm]
          exact List.all_takeWhile
        · intro r' hr' _
          have hall : (d0 :: tw).all Char.isDigit = true := by
            rw [hds.symm]; exact List.all_takeWhile
          have htw : ((d0 :: tw) ++ r').takeWhile Char.isDigit = d0 :: tw :=
            takeWhile_append_headNot r' hall hr'
          have hdw : ((d0 :: tw) ++ r').dropWhile Char.isDigit = r' :=
            dropWhile_append_headNot r' hall hr'
          rw [show ('.' :: (d0 :: tw)) ++ r' = '.' :: ((d0 :: tw) ++ r') by rfl]
          rw [show parseFracPart ('.' :: ((d0 :: tw) ++ r'))
              = (if (((d0 :: tw) ++ r').takeWhile Char.isDigit).isEmpty then none
                 else some (((d0 :: tw) ++ r').takeWhile Char.isDigit,
                   ((d0 :: tw) ++ r').dropWhile Char.isDigit))
              from by simp [parseFracPart], htw, hdw]
          simp
    · simp only [parseFracPart, if_neg hc, Option.some.injEq, Prod.mk.injEq] at h
      obtain ⟨h1, h2⟩ := h
      subst h1; subst h2
      exact ⟨[], rfl, Or.inl ⟨rfl, rfl⟩, fun r' _ hdot => hext_absent r' hdot⟩

/-- Structure of a successful exponent-part parse. -/
theorem parseExpPart_structure {l : List Char} {esign : Bool} {eds r : List Char}
    (h : parseExpPart l = some (esign, eds, r)) :
    ∃ xc, l = xc ++ r ∧
      ((xc = [] ∧ eds = [] ∧ esign = false) ∨
        (∃ e0 sg, (e0 = 'e' ∨ e0 = 'E') ∧ (sg = [] ∨ sg = ['+'] ∨ sg = ['-']) ∧
          xc = e0 :: (sg ++ eds) ∧ eds ≠ [] ∧ eds.all Char.isDigit = true ∧
          esign = decide (sg = ['-']))) ∧
      ∀ r', headNot Char.isDigit r' = true →
        headNot (fun c => c = 'e' ∨ c = 'E') r' = true →
        parseExpPart (xc ++ r') = some (esign, eds, r') := by
  have hext_absent : ∀ r', headNot (fun c => c = 'e' ∨ c = 'E') r' = true →
      parseExpPart r' = some (false, [], r') := by
    intro r' hexp
    cases r' with
    | nil => rfl
    | cons d rest' =>
      simp only [headNot, Bool.not_eq_true', decide_eq_false_iff_not] at hexp
      simp [parseExpPart, hexp]
  cases l with
  | nil =>
    simp only [parseExpPart, Option.some.injEq, Prod.mk.injEq] at h
    obtain ⟨h1, h2, h3⟩ := h
    subst h1; subst h2; subst h3
    exact ⟨[], rfl, Or.inl ⟨rfl, rfl, rfl⟩, fun r' _ hexp => hext_absent r' hexp⟩
  | cons c rest =>
    by_cases he : c = 'e' ∨ c = 'E'
    · cases rest with
      | nil => simp [parseExpPart, he] at h
      | cons d r2 =>
        by_cases hplus : d = '+'
        · subst hplus
          rcases hds : r2.takeWhile Char.isDigit with _ | ⟨d0, tw⟩ <;>
            simp only [parseExpPart, if_pos he, if_pos rfl, hds, List.isEmpty_nil,
              List.isEmpty_cons, if_true, Bool.false_eq_true, if_false,
              Option.some.injEq, Prod.mk.injEq, reduceCtorEq] at h
          obtain ⟨h1, h2, h3⟩ := h
          subst h1; subst h2; subst h3
          have hall : (d0 :: tw).all Char.isDigit = true := by
            rw [hds.symm]; exact List.all_takeWhile
          refine ⟨c :: ('+' :: (d0 :: tw)), ?_, ?_, ?_⟩
          · have := List.takeWhile_append_dropWhile (p := Char.isDigit) (l := r2)
            rw [hds] at this
            conv_lhs => rw [this.symm]
            simp
          · exact Or.inr ⟨c, ['+'], he, Or.inr (Or.inl rfl), rfl, by simp, hall, rfl⟩
          · intro r' hr' _
            have htw := takeWhile_append_headNot r' hall hr'
            have hdw := dropWhile_append_headNot r' hall hr'
            rw [show (c :: ('+' :: (d0 :: tw))) ++ r' = c :: '+' :: ((d0 :: tw) ++ r')
              by simp]
            simp only [parseExpPart, if_pos he, if_pos rfl, htw, hdw,
              List.isEmpty_cons, Bool.false_eq_true, if_false]
            rw [if_pos trivial]
        · by_cases hminus : d = '-'
          · subst hminus
            rcases hds : r2.takeWhile Char.isDigit with _ | ⟨d0, tw⟩ <;>
              simp only [parseExpPart, if_pos he, if_neg (by decide : ¬('-' : Char) = '+'),
                if_pos rfl, hds, List.isEmpty_nil, List.isEmpty_cons, if_true,
                Bool.false_eq_true, if_false, Option.some.injEq, Prod.mk.injEq,
                reduceCtorEq] at h
            obtain ⟨h1, h2, h3⟩ := h
            subst h1; subst h2; subst h3
            have hall : (d0 :: tw).all Char.isDigit = true := by
              rw [hds.symm]; exact List.all_takeWhile
            refine ⟨c :: ('-' :: (d0 :: tw)), ?_, ?_, ?_⟩
            · have := List.takeWhile_append_dropWhile (p := Char.isDigit) (l := r2)
              rw [hds] at this
              conv_lhs => rw [this.symm]
              simp
            · exact Or.inr ⟨c, ['-'], he, Or.inr (Or.inr rfl), rfl, by simp, hall, rfl⟩
            · intro r' hr' _
              have htw := takeWhile_append_headNot r' hall hr'
              have hdw := dropWhile_append_headNot r' hall hr'
              rw [show (c :: ('-' :: (d0 :: tw))) ++ r' = c :: '-' :: ((d0 :: tw) ++ r')
                by simp]
              simp only [parseExpPart, if_pos he,
                if_neg (by decide : ¬('-' : Char) = '+'), if_pos rfl, htw, hdw,
                List.isEmpty_cons, Bool.false_eq_true, if_false]
              rw [if_pos trivial]
          · by_cases hd : d.isDigit
            · have hds : (d :: r2).takeWhile Char.isDigit = d :: r2.takeWhile Char.isDigit := by
                simp [List.takeWhile_cons, hd]
              have hdw0 : (d :: r2).dropWhile Char.isDigit = r2.dropWhile Char.isDigit := by
                simp [List.dropWhile_cons, hd]
              simp only [parseExpPart, if_pos he, if_neg hplus, if_neg hminus, hds, hdw0,
                List.isEmpty_cons, Bool.false_eq_true, if_false, Option.some.injEq,
                Prod.mk.injEq] at h
              obtain ⟨h1, h2, h3⟩ := h
              subst h1; subst h2; subst h3
              have hall : (d :: r2.takeWhile Char.isDigit).all Char.isDigit = true := by
                rw [hds.symm]; exact List.all_takeWhile
              refine ⟨c :: (d :: r2.takeWhile Char.isDigit), ?_, ?_, ?_⟩
              · have := List.takeWhile_append_dropWhile (p := Char.isDigit) (l := r2)
                conv_lhs => rw [this.symm]
                simp
              · exact Or.inr ⟨c, [], he, Or.inl rfl, rfl, by simp, hall, rfl⟩
              · intro r' hr' _
                have htw := takeWhile_append_headNot r' hall hr'
                have hdw := dropWhile_append_headNot r' hall hr'
                rw [show (c :: (d :: r2.takeWhile Char.isDigit)) ++ r'
                    = c :: ((d :: r2.takeWhile Char.isDigit) ++ r') by simp]
                have hne2 := digit_ne_punct hd
                cases htw2 : (d :: r2.takeWhile Char.isDigit) ++ r' with
                | nil => simp at htw2
                | cons x xs =>
                  have hx : x = d ∧ xs = r2.takeWhile Char.isDigit ++ r' := by
                    simp only [List.cons_append, List.cons.injEq] at htw2
                    exact ⟨htw2.1.symm, htw2.2.symm⟩
                  obtain ⟨hx1, hx2⟩ := hx
                  subst hx1; subst hx2
                  rw [List.cons_append] at htw hdw
                  simp only [parseExpPart, if_pos he, if_neg hne2.1, if_neg hne2.2.1,
                    htw, hdw, List.isEmpty_cons, Bool.false_eq_true, if_false]
            · have hds : (d :: r2).takeWhile Char.isDigit = [] := by
                simp [List.takeWhile_cons, hd]
              simp [parseExpPart, if_pos he, if_neg hplus, if_neg hminus, hds] at h
    · simp only [parseExpPart, if_neg he, Option.some.injEq, Prod.mk.injEq] at h
      obtain ⟨h1, h2, h3⟩ := h
      subst h1; subst h2; subst h3
      exact ⟨[], rfl, Or.inl ⟨rfl, rfl, rfl⟩, fun r' _ hexp => hext_absent r' hexp⟩

/-- A nonempty list all of whose elements satisfy `p` has a satisfying last
element. -/
theorem getLast?_all {p : Char → Bool} {ds : List Char} (hne : ds ≠ [])
    (hall : ds.all p = true) : ∃ x, ds.getLast? = some x ∧ p x = true := by
  refine ⟨ds.getLast hne, List.getLast?_eq_getLast ds hne, ?_⟩
  exact List.all_eq_true.mp hall _ (List.getLast_mem hne)

/-- A nonempty list all of whose elements satisfy `p` has a satisfying head. -/
theorem head?_all {p : Char → Bool} {ds : List Char} (hne : ds ≠ [])
    (hall : ds.all p = true) : ∃ x, ds.head? = some x ∧ p x = true := by
  cases ds with
  | nil => exact absurd rfl hne
  | cons d rest =>
    simp only [List.all_cons, Bool.and_eq_true] at hall
    exact ⟨d, rfl, hall.1⟩

/-- Unfolding: `parseNum` at a leading minus sign (definitional). -/
theorem parseNum_neg (rest : List Char) :
    parseNum ('-' :: rest)
      = match parseIntPart rest with
        | none => none
        | some (ids, r1) =>
          match parseFracPart r1 with
          | none => none
          | some (fds, r2) =>
            match parseExpPart r2 with
            | none => none
            | some (esign, eds, r3) =>
              some (Json.num (-(digitsToNat (ids ++ fds) : ℤ))
                ((if esign then -(digitsToNat eds : ℤ) else (digitsToNat eds : ℤ))
                  - (fds.length : ℤ)), r3) := rfl

/-- Unfolding: `parseNum` at a non-minus head. -/
theorem parseNum_pos (c0 : Char) (rest : List Char) (hneg : ¬c0 = '-') :
    parseNum (c0 :: rest)
      = match parseIntPart (c0 :: rest) with
        | none => none
        | some (ids, r1) =>
          match parseFracPart r1 with
          | none => none
          | some (fds, r2) =>
            match parseExpPart r2 with
            | none => none
            | some (esign, eds, r3) =>
              some (Json.num ((digitsToNat (ids ++ fds) : ℤ))
                ((if esign then -(digitsToNat eds : ℤ) else (digitsToNat eds : ℤ))
                  - (fds.length : ℤ)), r3) := by
  simp only [parseNum, if_neg hneg]

/-- Structure of a successful number parse: the consumed text starts with a
minus sign or digit, ends with a digit, and the parse is insensitive to any
good extension in place of the rest. -/
theorem parseNum_structure {l : List Char} {j : Json} {r : List Char}
    (h : parseNum l = some (j, r)) :
    ∃ c, l = c ++ r ∧
      (∃ d, c.head? = some d ∧ (d = '-' ∨ d.isDigit = true)) ∧
      (∃ e, c.getLast? = some e ∧ e.isDigit = true) ∧
      (∃ m x, j = Json.num m x) ∧
      ∀ ext, goodExt ext = true → parseNum (c ++ ext) = some (j, ext) := by
  cases l with
  | nil => simp [parseNum] at h
  | cons c0 rest =>
    by_cases hneg : c0 = '-'
    · subst hneg
      rw [parseNum_neg] at h
      rcases hip : parseIntPart rest with _ | ⟨ids, r1⟩ <;> simp only [hip, reduceCtorEq] at h
      rcases hfp : parseFracPart r1 with _ | ⟨fds, r2⟩ <;> simp only [hfp, reduceCtorEq] at h
      rcases hep : parseExpPart r2 with _ | ⟨esign, eds, r3⟩ <;> simp only [hep, reduceCtorEq] at h
      simp only [Option.some.injEq, Prod.mk.injEq] at h
      obtain ⟨hj, hr⟩ := h
      subst hj; subst hr
      obtain ⟨hIdec, hIne, hIall, hIext⟩ := parseIntPart_structure hip
      obtain ⟨fc, hFdec, hFshape, hFext⟩ := parseFracPart_structure hfp
      obtain ⟨xc, hEdec, hEshape, hEext⟩ := parseExpPart_structure hep
      have hfcHeadDigit : headNot Char.isDigit (fc ++ (xc ++ r3)) =
          headNot Char.isDigit (fc ++ (xc ++ r3)) := rfl
      refine ⟨'-' :: (ids ++ (fc ++ xc)), ?_, ⟨'-', rfl, Or.inl rfl⟩, ?_, ?_, ?_⟩
      · rw [hIdec, hFdec, hEdec]; simp
      · -- the last consumed character is a digit
        rcases hFshape with ⟨hfc, hfds⟩ | ⟨hfc, hfdsne, hfdsall⟩ <;>
          rcases hEshape with ⟨hxc, heds, hesign⟩ |
            ⟨e0, sg, he0, hsg, hxc, hedsne, hedsall, hesign⟩
        · subst hfc; subst hxc
          obtain ⟨x, hx, hxd⟩ := getLast?_all hIne hIall
          exact ⟨x, by simpa using getLast?_append_right ['-'] hx, hxd⟩
        · subst hfc; subst hxc
          obtain ⟨x, hx, hxd⟩ := getLast?_all hedsne hedsall
          refine ⟨x, ?_, hxd⟩
          rw [show '-' :: (ids ++ ([] ++ (e0 :: (sg ++ eds))))
              = ('-' :: ids ++ (e0 :: sg)) ++ eds by simp]
          exact getLast?_append_right _ hx
        · subst hfc; subst hxc
          obtain ⟨x, hx, hxd⟩ := getLast?_all hfdsne hfdsall
          refine ⟨x, ?_, hxd⟩
          rw [show '-' :: (ids ++ ('.' :: fds ++ []))
              = ('-' :: ids ++ ['.']) ++ fds by simp]
          exact getLast?_append_right _ hx
        · subst hfc; subst hxc
          obtain ⟨x, hx, hxd⟩ := getLast?_all hedsne hedsall
          refine ⟨x, ?_, hxd⟩
          rw [show '-' :: (ids ++ ('.' :: fds ++ (e0 :: (sg ++ eds))))
              = ('-' :: ids ++ ('.' :: fds ++ (e0 :: sg))) ++ eds by simp]
          exact getLast?_append_right _ hx
      · exact ⟨_, _, rfl⟩
      · intro ext hgood
        have hnd : headNot Char.isDigit (fc ++ (xc ++ ext)) = true := by
          rcases hFshape with ⟨hfc, _⟩ | ⟨hfc, _, _⟩
          · subst hfc
            rcases hEshape with ⟨hxc, _, _⟩ | ⟨e0, sg, he0, _, hxc, _, _, _⟩
            · subst hxc
              simpa using goodExt_headNot_digit hgood
            · subst hxc
              rcases he0 with rfl | rfl <;> rfl
          · subst hfc; rfl
        have hndX : headNot Char.isDigit (xc ++ ext) = true := by
          rcases hEshape with ⟨hxc, _, _⟩ | ⟨e0, sg, he0, _, hxc, _, _, _⟩
          · subst hxc
            simpa using goodExt_headNot_digit hgood
          · subst hxc
            rcases he0 with rfl | rfl <;> rfl
        have hdotX : headNot (fun c => c = '.') (xc ++ ext) = true := by
          rcases hEshape with ⟨hxc, _, _⟩ | ⟨e0, sg, he0, _, hxc, _, _, _⟩
          · subst hxc
            simpa using goodExt_headNot_dot hgood
          · subst hxc
            rcases he0 with rfl | rfl <;> rfl
        have hndE : headNot Char.isDigit ext = true := goodExt_headNot_digit hgood
        have hexpE : headNot (fun c => c = 'e' ∨ c = 'E') ext = true :=
          goodExt_headNot_exp hgood
        rw [show ('-' :: (ids ++ (fc ++ xc))) ++ ext
            = '-' :: (ids ++ (fc ++ (xc ++ ext))) by simp]
        rw [parseNum_neg]
        rw [hIext (fc ++ (xc ++ ext)) hnd]
        simp only []
        rw [hFext (xc ++ ext) hndX hdotX]
        simp only []
        rw [hEext ext hndE hexpE]
    · rw [parseNum_pos c0 rest hneg] at h
      rcases hip : parseIntPart (c0 :: rest) with _ | ⟨ids, r1⟩ <;> simp only [hip, reduceCtorEq] at h
      rcases hfp : parseFracPart r1 with _ | ⟨fds, r2⟩ <;> simp only [hfp, reduceCtorEq] at h
      rcases hep : parseExpPart r2 with _ | ⟨esign, eds, r3⟩ <;> simp only [hep, reduceCtorEq] at h
      simp only [Option.some.injEq, Prod.mk.injEq] at h
      obtain ⟨hj, hr⟩ := h
      subst hj; subst hr
      obtain ⟨hIdec, hIne, hIall, hIext⟩ := parseIntPart_structure hip
      obtain ⟨fc, hFdec, hFshape, hFext⟩ := parseFracPart_structure hfp
      obtain ⟨xc, hEdec, hEshape, hEext⟩ := parseExpPart_structure hep
      obtain ⟨d0, hd0, hd0dig⟩ := head?_all hIne hIall
      refine ⟨ids ++ (fc ++ xc), ?_, ?_, ?_, ?_, ?_⟩
      · have : c0 :: rest = ids ++ r1 := hIdec
        rw [this, hFdec, hEdec]; simp
      · refine ⟨d0, ?_, Or.inr hd0dig⟩
        cases ids with
        | nil => exact absurd rfl hIne
        | cons y ys => simpa using hd0
      · rcases hFshape with ⟨hfc, hfds⟩ | ⟨hfc, hfdsne, hfdsall⟩ <;>
          rcases hEshape with ⟨hxc, heds, hesign⟩ |
            ⟨e0, sg, he0, hsg, hxc, hedsne, hedsall, hesign⟩
        · subst hfc; subst hxc
          obtain ⟨x, hx, hxd⟩ := getLast?_all hIne hIall
          exact ⟨x, by simpa using hx, hxd⟩
        · subst hfc; subst hxc
          obtain ⟨x, hx, hxd⟩ := getLast?_all hedsne hedsall
          refine ⟨x, ?_, hxd⟩
          rw [show ids ++ ([] ++ (e0 :: (sg ++ eds))) = (ids ++ (e0 :: sg)) ++ eds by simp]
          exact getLast?_append_right _ hx
        · subst hfc; subst hxc
          obtain ⟨x, hx, hxd⟩ := getLast?_all hfdsne hfdsall
          refine ⟨x, ?_, hxd⟩
          rw [show ids ++ ('.' :: fds ++ []) = (ids ++ ['.']) ++ fds by simp]
          exact getLast?_append_right _ hx
        · subst hfc; subst hxc
          obtain ⟨x, hx, hxd⟩ := getLast?_all hedsne hedsall
          refine ⟨x, ?_, hxd⟩
          rw [show ids ++ ('.' :: fds ++ (e0 :: (sg ++ eds)))
              = (ids ++ ('.' :: fds ++ (e0 :: sg))) ++ eds by simp]
          exact getLast?_append_right _ hx
      · exact ⟨_, _, rfl⟩
      · intro ext hgood
        have hnd : headNot Char.isDigit (fc ++ (xc ++ ext)) = true := by
          rcases hFshape with ⟨hfc, _⟩ | ⟨hfc, _, _⟩
          · subst hfc
            rcases hEshape with ⟨hxc, _, _⟩ | ⟨e0, sg, he0, _, hxc, _, _, _⟩
            · subst hxc
              simpa using goodExt_headNot_digit hgood
            · subst hxc
              rcases he0 with rfl | rfl <;> rfl
          · subst hfc; rfl
        have hndX : headNot Char.isDigit (xc ++ ext) = true := by
          rcases hEshape with ⟨hxc, _, _⟩ | ⟨e0, sg, he0, _, hxc, _, _, _⟩
          · subst hxc
            simpa using goodExt_headNot_digit hgood
          · subst hxc
            rcases he0 with rfl | rfl <;> rfl
        have hdotX : headNot (fun c => c = '.') (xc ++ ext) = true := by
          rcases hEshape with ⟨hxc, _, _⟩ | ⟨e0, sg, he0, _, hxc, _, _, _⟩
          · subst hxc
            simpa using goodExt_headNot_dot hgood
          · subst hxc
            rcases he0 with rfl | rfl <;> rfl
        have hndE : headNot Char.isDigit ext = true := goodExt_headNot_digit hgood
        have hexpE : headNot (fun c => c = 'e' ∨ c = 'E') ext = true :=
          goodExt_headNot_exp hgood
        cases ids with
        | nil => exact absurd rfl hIne
        | cons y ys =>
          have hy : y = d0 := by simpa using hd0
          have hydig : y.isDigit = true := by rw [hy]; exact hd0dig
          have hyneg : ¬y = '-' := (digit_ne_punct hydig).2.1
          rw [show ((y :: ys) ++ (fc ++ xc)) ++ ext
              = y :: (ys ++ (fc ++ (xc ++ ext))) by simp]
          rw [parseNum_pos y _ hyneg]
          rw [show y :: (ys ++ (fc ++ (xc ++ ext)))
              = (y :: ys) ++ (fc ++ (xc ++ ext)) by simp]
          rw [hIext (fc ++ (xc ++ ext)) hnd]
          simp only []
          rw [hFext (xc ++ ext) hndX hdotX]
          simp only []
          rw [hEext ext hndE hexpE]

/-! ## Structure of the value parser -/

/-- A digit never equals a non-digit character. -/
theorem digit_ne_nondigit {c d : Char} (hc : c.isDigit = true) (hd : d.isDigit = false) :
    c ≠ d := by
  intro he; subst he; rw [hc] at hd; exact Bool.true_eq_false.mp hd

/-- A value-starting character is not a closing bracket or brace. -/
theorem valStart_ne_closer {d : Char} (h : valStart d = true) : d ≠ ']' ∧ d ≠ '\x7d' := by
  simp only [valStart, decide_eq_true_eq] at h
  rcases h with rfl | rfl | rfl | rfl | rfl | rfl | rfl | h
  · exact ⟨by decide, by decide⟩
  · exact ⟨by decide, by decide⟩
  · exact ⟨by decide, by decide⟩
  · exact ⟨by decide, by decide⟩
  · exact ⟨by decide, by decide⟩
  · exact ⟨by decide, by decide⟩
  · exact ⟨by decide, by decide⟩
  · exact ⟨digit_ne_nondigit h (by decide), digit_ne_nondigit h (by decide)⟩

/-- `goodExt` is the same test as `headNot numExtChar`. -/
theorem goodExt_eq_headNot (l : List Char) : goodExt l = headNot numExtChar l := by
  cases l <;> rfl

/-- JSON whitespace cannot extend a number token. -/
theorem jsonWs_not_numExt {c : Char} (h : jsonWs c = true) : numExtChar c = false := by
  simp only [jsonWs, decide_eq_true_eq] at h
  rcases h with rfl | rfl | rfl | rfl <;> rfl

/-- Prepending whitespace preserves a good extension. -/
theorem goodExt_append_ws {w : List Char} (rest : List Char) (hw : w.all jsonWs = true)
    (hrest : goodExt rest = true) : goodExt (w ++ rest) = true := by
  cases w with
  | nil => exact hrest
  | cons c w' =>
    simp only [List.all_cons, Bool.and_eq_true] at hw
    simp only [List.cons_append, goodExt, Bool.not_eq_true']
    exact jsonWs_not_numExt hw.1

/-- A list starting with a known head keeps it under left-append. -/
theorem head?_append_left {α : Type} {a : List α} (b : List α) {x : α}
    (h : a.head? = some x) : (a ++ b).head? = some x := by
  cases a with
  | nil => simp at h
  | cons y ys => simpa using h

/-- Every list splits as its whitespace front followed by `skipWs`. -/
theorem skipWs_decomp (r : List Char) : r = r.takeWhile jsonWs ++ skipWs r :=
  (List.takeWhile_append_dropWhile jsonWs r).symm

/-- `skipWs` over a whitespace block followed by a non-whitespace head. -/
theorem skipWs_append_stop {w : List Char} {c : Char} (b : List Char)
    (hw : w.all jsonWs = true) (hc : jsonWs c = false) : skipWs (w ++ c :: b) = c :: b :=
  dropWhile_append_stop b hw hc

/-- Unfolding: `parseVal` out of fuel. -/
theorem parseVal_zero (l : List Char) : parseVal 0 l = none := rfl

/-- Unfolding: `parseItems` out of fuel. -/
theorem parseItems_zero (l : List Char) : parseItems 0 l = none := rfl

/-- Unfolding: `parseFields` out of fuel. -/
theorem parseFields_zero (l : List Char) : parseFields 0 l = none := rfl

/-- Unfolding: the full `parseVal` step (definitional). -/
theorem parseVal_eq (fuel : Nat) (l : List Char) :
    parseVal (fuel + 1) l
      = match l with
        | 'n' :: 'u' :: 'l' :: 'l' :: r => some (Json.null, r)
        | 't' :: 'r' :: 'u' :: 'e' :: r => some (Json.bool true, r)
        | 'f' :: 'a' :: 'l' :: 's' :: 'e' :: r => some (Json.bool false, r)
        | '"' :: r => (parseStr (r.length + 1) r).map fun p => (Json.str (String.mk p.1), p.2)
        | '[' :: r =>
          match skipWs r with
          | ']' :: r2 => some (Json.arr [], r2)
          | r1 => (parseItems fuel r1).map fun p => (Json.arr p.1, p.2)
        | '\x7b' :: r =>
          match skipWs r with
          | '\x7d' :: r2 => some (Json.obj [], r2)
          | r1 => (parseFields fuel r1).map fun p => (Json.obj p.1, p.2)
        | _ => parseNum l := rfl

/-- Unfolding: `parseVal` at the `null` keyword. -/
theorem parseVal_null (fuel : Nat) (r : List Char) :
    parseVal (fuel + 1) ('n' :: 'u' :: 'l' :: 'l' :: r) = some (Json.null, r) := rfl

/-- Unfolding: `parseVal` at the `true` keyword. -/
theorem parseVal_true (fuel : Nat) (r : List Char) :
    parseVal (fuel + 1) ('t' :: 'r' :: 'u' :: 'e' :: r) = some (Json.bool true, r) := rfl

/-- Unfolding: `parseVal` at the `false` keyword. -/
theorem parseVal_false (fuel : Nat) (r : List Char) :
    parseVal (fuel + 1) ('f' :: 'a' :: 'l' :: 's' :: 'e' :: r)
      = some (Json.bool false, r) := rfl

/-- Unfolding: `parseVal` at an opening quote. -/
theorem parseVal_str (fuel : Nat) (r : List Char) :
    parseVal (fuel + 1) ('"' :: r)
      = (parseStr (r.length + 1) r).map fun p => (Json.str (String.mk p.1), p.2) := rfl

/-- Unfolding: `parseVal` at an opening bracket. -/
theorem parseVal_arr (fuel : Nat) (r : List Char) :
    parseVal (fuel + 1) ('[' :: r)
      = match skipWs r with
        | ']' :: r2 => some (Json.arr [], r2)
        | r1 => (parseItems fuel r1).map fun p => (Json.arr p.1, p.2) := rfl

/-- Unfolding: `parseVal` at an opening brace. -/
theorem parseVal_obj (fuel : Nat) (r : List Char) :
    parseVal (fuel + 1) ('\x7b' :: r)
      = match skipWs r with
        | '\x7d' :: r2 => some (Json.obj [], r2)
        | r1 => (parseFields fuel r1).map fun p => (Json.obj p.1, p.2) := rfl

/-- Unfolding: the full `parseItems` step (definitional). -/
theorem parseItems_eq (fuel : Nat) (l : List Char) :
    parseItems (fuel + 1) l
      = match parseVal fuel l with
        | none => none
        | some (j, r) =>
          match skipWs r with
          | ',' :: r2 =>
            match parseItems fuel (skipWs r2) with
            | none => none
            | some (xs, r3) => some (j :: xs, r3)
          | ']' :: r2 => some ([j], r2)
          | _ => none := rfl

/-- Unfolding: `parseItems` after a successful element parse. -/
theorem parseItems_eq_val (fuel : Nat) (l : List Char) (j : Json) (rV : List Char)
    (hv : parseVal fuel l = some (j, rV)) :
    parseItems (fuel + 1) l
      = match skipWs rV with
        | ',' :: r2 =>
          match parseItems fuel (skipWs r2) with
          | none => none
          | some (xs, r3) => some (j :: xs, r3)
        | ']' :: r2 => some ([j], r2)
        | _ => none := by
  rw [parseItems_eq, hv]

/-- Unfolding: the full `parseFields` step (definitional). -/
theorem parseFields_eq (fuel : Nat) (l : List Char) :
    parseFields (fuel + 1) l
      = match l with
        | '"' :: r =>
          match parseStr (r.length + 1) r with
          | none => none
          | some (k, r1) =>
            match skipWs r1 with
            | ':' :: r2 =>
              match parseVal fuel (skipWs r2) with
              | none => none
              | some (v, r3) =>
                match skipWs r3 with
                | ',' :: r4 =>
                  match parseFields fuel (skipWs r4) with
                  | none => none
                  | some (fs, r5) => some ((String.mk k, v) :: fs, r5)
                | '\x7d' :: r4 => some ([(String.mk k, v)], r4)
                | _ => none
            | _ => none
        | _ => none := rfl

/-- Unfolding: `parseFields` at an opening quote. -/
theorem parseFields_cons (fuel : Nat) (r : List Char) :
    parseFields (fuel + 1) ('"' :: r)
      = match parseStr (r.length + 1) r with
        | none => none
        | some (k, r1) =>
          match skipWs r1 with
          | ':' :: r2 =>
            match parseVal fuel (skipWs r2) with
            | none => none
            | some (v, r3) =>
              match skipWs r3 with
              | ',' :: r4 =>
                match parseFields fuel (skipWs r4) with
                | none => none
                | some (fs, r5) => some ((String.mk k, v) :: fs, r5)
              | '\x7d' :: r4 => some ([(String.mk k, v)], r4)
              | _ => none
          | _ => none := rfl

/-- The induction payload for `parseVal`: every successful parse consumes a
prefix that starts with a value-starting character, ends with a
non-whitespace character (brace-delimited for objects), and can be re-run
against any good extension with any sufficient fuel. -/
def ValOk (fuel : Nat) : Prop :=
  ∀ l j r, parseVal fuel l = some (j, r) →
    ∃ c, l = c ++ r ∧
      (∃ d, c.head? = some d ∧ valStart d = true) ∧
      (∃ e, c.getLast? = some e ∧ jsWs e = false) ∧
      (∀ fs, j = Json.obj fs → c.head? = some '\x7b' ∧ c.getLast? = some '\x7d') ∧
      (∀ g ext, 2 * c.length + 1 ≤ g → goodExt ext = true →
        parseVal g (c ++ ext) = some (j, ext))

/-- The induction payload for `parseItems`. -/
def ItemsOk (fuel : Nat) : Prop :=
  ∀ l xs r, parseItems fuel l = some (xs, r) →
    ∃ c, l = c ++ r ∧
      (∃ d, c.head? = some d ∧ valStart d = true) ∧
      c.getLast? = some ']' ∧
      (∀ g ext, 2 * c.length + 1 ≤ g → parseItems g (c ++ ext) = some (xs, ext))

/-- The induction payload for `parseFields`. -/
def FieldsOk (fuel : Nat) : Prop :=
  ∀ l fs r, parseFields fuel l = some (fs, r) →
    ∃ c, l = c ++ r ∧
      c.head? = some '"' ∧ c.getLast? = some '\x7d' ∧
      (∀ g ext, 2 * c.length + 1 ≤ g → parseFields g (c ++ ext) = some (fs, ext))

/-- One step of the value parser satisfies `ValOk`, assuming the payloads for
the element and member parsers at the smaller fuel. -/
theorem step_val (fuel : Nat) (ihI : ItemsOk fuel) (ihF : FieldsOk fuel) :
    ValOk (fuel + 1) := by
  intro l j r h
  rw [parseVal_eq] at h
  split at h
  case _ r0 =>
    simp only [Option.some.injEq, Prod.mk.injEq] at h
    obtain ⟨hj, hr⟩ := h
    subst hj; subst hr
    refine ⟨['n', 'u', 'l', 'l'], by simp, ⟨'n', rfl, by decide⟩,
      ⟨'l', by decide, by decide⟩, fun fs hobj => Json.noConfusion hobj, ?_⟩
    intro g ext hg _
    rcases g with _ | g
    · omega
    · exact parseVal_null g ext
  case _ r0 =>
    simp only [Option.some.injEq, Prod.mk.injEq] at h
    obtain ⟨hj, hr⟩ := h
    subst hj; subst hr
    refine ⟨['t', 'r', 'u', 'e'], by simp, ⟨'t', rfl, by decide⟩,
      ⟨'e', by decide, by decide⟩, fun fs hobj => Json.noConfusion hobj, ?_⟩
    intro g ext hg _
    rcases g with _ | g
    · omega
    · exact parseVal_true g ext
  case _ r0 =>
    simp only [Option.some.injEq, Prod.mk.injEq] at h
    obtain ⟨hj, hr⟩ := h
    subst hj; subst hr
    refine ⟨['f', 'a', 'l', 's', 'e'], by simp, ⟨'f', rfl, by decide⟩,
      ⟨'e', by decide, by decide⟩, fun fs hobj => Json.noConfusion hobj, ?_⟩
    intro g ext hg _
    rcases g with _ | g
    · omega
    · exact parseVal_false g ext
  case _ r0 =>
    rcases hps : parseStr (r0.length + 1) r0 with _ | ⟨s1, r1⟩ <;> rw [hps] at h <;>
      simp only [Option.map_none', Option.map_some', Option.some.injEq, Prod.mk.injEq,
        reduceCtorEq] at h
    obtain ⟨hj, hr⟩ := h
    subst hj; subst hr
    obtain ⟨cS, hdecS, hlastS, hextS⟩ := parseStr_structure _ _ _ _ hps
    refine ⟨'"' :: cS, by simp [hdecS], ⟨'"', rfl, by decide⟩,
      ⟨'"', getLast?_append_right ['"'] hlastS, by decide⟩,
      fun fs hobj => Json.noConfusion hobj, ?_⟩
    intro g ext hg _
    rcases g with _ | g
    · omega
    · rw [show ('"' :: cS) ++ ext = '"' :: (cS ++ ext) by rfl, parseVal_str]
      rw [hextS ((cS ++ ext).length + 1) ext (by simp)]
      rfl
  case _ r0 =>
    split at h
    case _ r2 hsw =>
      simp only [Option.some.injEq, Prod.mk.injEq] at h
      obtain ⟨hj, hr⟩ := h
      subst hj; subst hr
      have hdec : r0 = r0.takeWhile jsonWs ++ (']' :: r2) := by
        conv_lhs => rw [skipWs_decomp r0]
        rw [hsw]
      refine ⟨'[' :: (r0.takeWhile jsonWs ++ [']']), ?_, ⟨'[', rfl, by decide⟩,
        ⟨']', ?_, by decide⟩, fun fs hobj => Json.noConfusion hobj, ?_⟩
      · conv_lhs => rw [hdec]
        simp
      · rw [show '[' :: (r0.takeWhile jsonWs ++ [']'])
            = ('[' :: r0.takeWhile jsonWs) ++ [']'] by simp]
        exact getLast?_append_right _ rfl
      · intro g ext hg _
        rcases g with _ | g
        · omega
        · rw [show ('[' :: (r0.takeWhile jsonWs ++ [']'])) ++ ext
              = '[' :: (r0.takeWhile jsonWs ++ (']' :: ext)) by simp, parseVal_arr]
          rw [skipWs_append_stop ext List.all_takeWhile (by decide)]
          rfl
    case _ hnesw =>
      rcases hpi : parseItems fuel (skipWs r0) with _ | ⟨xs, r1⟩ <;> rw [hpi] at h <;>
        simp only [Option.map_none', Option.map_some', Option.some.injEq, Prod.mk.injEq,
          reduceCtorEq] at h
      obtain ⟨hj, hr⟩ := h
      subst hj; subst hr
      obtain ⟨cI, hdecI, ⟨dW, hdW, hdWvs⟩, hlastI, hextI⟩ := ihI _ _ _ hpi
      rcases cI with _ | ⟨d1, cI'⟩
      · simp at hdW
      have hdeq : d1 = dW := by simpa using hdW
      have hd1vs : valStart d1 = true := by rw [hdeq]; exact hdWvs
      have hdec : r0 = r0.takeWhile jsonWs ++ ((d1 :: cI') ++ r1) := by
        conv_lhs => rw [skipWs_decomp r0]
        rw [hdecI]
      refine ⟨'[' :: (r0.takeWhile jsonWs ++ (d1 :: cI')), ?_, ⟨'[', rfl, by decide⟩,
        ⟨']', ?_, by decide⟩, fun fs hobj => Json.noConfusion hobj, ?_⟩
      · conv_lhs => rw [hdec]
        simp
      · rw [show '[' :: (r0.takeWhile jsonWs ++ (d1 :: cI'))
            = ('[' :: r0.takeWhile jsonWs) ++ (d1 :: cI') by simp]
        exact getLast?_append_right _ hlastI
      · intro g ext hg _
        rcases g with _ | g
        · omega
        · rw [show ('[' :: (r0.takeWhile jsonWs ++ (d1 :: cI'))) ++ ext
              = '[' :: (r0.takeWhile jsonWs ++ (d1 :: (cI' ++ ext))) by simp, parseVal_arr]
          rw [skipWs_append_stop (cI' ++ ext) List.all_takeWhile (valStart_not_jsonWs hd1vs)]
          split
          case _ r2' hr2' =>
            have : d1 = ']' := by
              simpa using congrArg List.head? hr2'
            exact absurd this (valStart_ne_closer hd1vs).1
          case _ =>
            rw [show d1 :: (cI' ++ ext) = (d1 :: cI') ++ ext by rfl]
            rw [hextI g ext ?hlen]
            · rfl
            case hlen =>
              simp only [List.length_cons, List.length_append] at hg ⊢
              omega
  case _ r0 =>
    split at h
    case _ r2 hsw =>
      simp only [Option.some.injEq, Prod.mk.injEq] at h
      obtain ⟨hj, hr⟩ := h
      subst hj; subst hr
      have hdec : r0 = r0.takeWhile jsonWs ++ ('\x7d' :: r2) := by
        conv_lhs => rw [skipWs_decomp r0]
        rw [hsw]
      refine ⟨'\x7b' :: (r0.takeWhile jsonWs ++ ['\x7d']), ?_, ⟨'\x7b', rfl, by decide⟩,
        ⟨'\x7d', ?_, by decide⟩, ?_, ?_⟩
      · conv_lhs => rw [hdec]
        simp
      · rw [show '\x7b' :: (r0.takeWhile jsonWs ++ ['\x7d'])
            = ('\x7b' :: r0.takeWhile jsonWs) ++ ['\x7d'] by simp]
        exact getLast?_append_right _ rfl
      · intro fs hobj
        refine ⟨rfl, ?_⟩
        rw [show '\x7b' :: (r0.takeWhile jsonWs ++ ['\x7d'])
            = ('\x7b' :: r0.takeWhile jsonWs) ++ ['\x7d'] by simp]
        exact getLast?_append_right _ rfl
      · intro g ext hg _
        rcases g with _ | g
        · omega
        · rw [show ('\x7b' :: (r0.takeWhile jsonWs ++ ['\x7d'])) ++ ext
              = '\x7b' :: (r0.takeWhile jsonWs ++ ('\x7d' :: ext)) by simp, parseVal_obj]
          rw [skipWs_append_stop ext List.all_takeWhile (by decide)]
          rfl
    case _ hnesw =>
      rcases hpf : parseFields fuel (skipWs r0) with _ | ⟨fs1, r1⟩ <;> rw [hpf] at h <;>
        simp only [Option.map_none', Option.map_some', Option.some.injEq, Prod.mk.injEq,
          reduceCtorEq] at h
      obtain ⟨hj, hr⟩ := h
      subst hj; subst hr
      obtain ⟨cF, hdecF, hheadF, hlastF, hextF⟩ := ihF _ _ _ hpf
      rcases cF with _ | ⟨d1, cF'⟩
      · simp at hheadF
      have hd1 : d1 = '"' := by simpa using hheadF
      subst hd1
      have hdec : r0 = r0.takeWhile jsonWs ++ (('"' :: cF') ++ r1) := by
        conv_lhs => rw [skipWs_decomp r0]
        rw [hdecF]
      refine ⟨'\x7b' :: (r0.takeWhile jsonWs ++ ('"' :: cF')), ?_, ⟨'\x7b', rfl, by decide⟩,
        ⟨'\x7d', ?_, by decide⟩, ?_, ?_⟩
      · conv_lhs => rw [hdec]
        simp
      · rw [show '\x7b' :: (r0.takeWhile jsonWs ++ ('"' :: cF'))
            = ('\x7b' :: r0.takeWhile jsonWs) ++ ('"' :: cF') by simp]
        exact getLast?_append_right _ hlastF
      · intro fs2 hobj
        refine ⟨rfl, ?_⟩
        rw [show '\x7b' :: (r0.takeWhile jsonWs ++ ('"' :: cF'))
            = ('\x7b' :: r0.takeWhile jsonWs) ++ ('"' :: cF') by simp]
        exact getLast?_append_right _ hlastF
      · intro g ext hg _
        rcases g with _ | g
        · omega
        · rw [show ('\x7b' :: (r0.takeWhile jsonWs ++ ('"' :: cF'))) ++ ext
              = '\x7b' :: (r0.takeWhile jsonWs ++ ('"' :: (cF' ++ ext))) by simp,
            parseVal_obj]
          rw [skipWs_append_stop (cF' ++ ext) List.all_takeWhile (by decide)]
          split
          case _ r2' hr2' =>
            have : ('"' : Char) = '\x7d' := by
              simpa using congrArg List.head? hr2'
            exact absurd this (by decide)
          case _ =>
            rw [show ('"' : Char) :: (cF' ++ ext) = ('"' :: cF') ++ ext by rfl]
            rw [hextF g ext ?hlen2]
            · rfl
            case hlen2 =>
              simp only [List.length_cons, List.length_append] at hg ⊢
              omega
  case _ hne1 hne2 hne3 hne4 hne5 hne6 =>
    obtain ⟨c, hdec, ⟨dW, hdW, hdorW⟩, ⟨e, he, hed⟩, hjn, hextN⟩ := parseNum_structure h
    rcases c with _ | ⟨d1, c'⟩
    · simp at hdW
    have hdeq : d1 = dW := by simpa using hdW
    have hdor : d1 = '-' ∨ d1.isDigit = true := by rw [hdeq]; exact hdorW
    have hdvs : valStart d1 = true := by
      rcases hdor with hdm | hdig
      · rw [hdm]; decide
      · simp [valStart, hdig]
    refine ⟨d1 :: c', hdec, ⟨d1, rfl, hdvs⟩, ⟨e, he, digit_not_jsWs hed⟩, ?_, ?_⟩
    · intro fs hobj
      obtain ⟨m, x, hjx⟩ := hjn
      rw [hjx] at hobj
      exact Json.noConfusion hobj
    · intro g ext hg hgood
      rcases g with _ | g
      · omega
      · rw [parseVal_eq]
        have hdis : ∀ x : Char, x.isDigit = false → x ≠ '-' → d1 ≠ x := by
          intro x hx hxm
          rcases hdor with hdm | hdig
          · subst hdm
            exact fun hcon => hxm hcon.symm
          · exact digit_ne_nondigit hdig hx
        split
        case _ rr heq =>
          have : d1 = 'n' := by simpa using congrArg List.head? heq
          exact absurd this (hdis 'n' (by decide) (by decide))
        case _ rr heq =>
          have : d1 = 't' := by simpa using congrArg List.head? heq
          exact absurd this (hdis 't' (by decide) (by decide))
        case _ rr heq =>
          have : d1 = 'f' := by simpa using congrArg List.head? heq
          exact absurd this (hdis 'f' (by decide) (by decide))
        case _ rr heq =>
          have : d1 = '"' := by simpa using congrArg List.head? heq
          exact absurd this (hdis '"' (by decide) (by decide))
        case _ rr heq =>
          have : d1 = '[' := by simpa using congrArg List.head? heq
          exact absurd this (hdis '[' (by decide) (by decide))
        case _ rr heq =>
          have : d1 = '\x7b' := by simpa using congrArg List.head? heq
          exact absurd this (hdis '\x7b' (by decide) (by decide))
        case _ =>
          exact hextN ext hgood

/-- Unfolding: `parseItems` when the element parse fails. -/
theorem parseItems_eq_none (fuel : Nat) (l : List Char)
    (hv : parseVal fuel l = none) : parseItems (fuel + 1) l = none := by
  rw [parseItems_eq, hv]

/-- One step of the element parser satisfies `ItemsOk`, assuming the payloads
at the smaller fuel. -/
theorem step_items (fuel : Nat) (ihV : ValOk fuel) (ihI : ItemsOk fuel) :
    ItemsOk (fuel + 1) := by
  intro l xs r h
  rcases hv : parseVal fuel l with _ | ⟨j, rV⟩
  · rw [parseItems_eq_none fuel l hv] at h
    exact Option.noConfusion h
  · rw [parseItems_eq_val fuel l j rV hv] at h
    obtain ⟨cV, hdecV, ⟨dV, hdV, hdVvs⟩, ⟨eV, heV, heVws⟩, hobjV, hextV⟩ := ihV _ _ _ hv
    rcases cV with _ | ⟨dV1, cV'⟩
    · simp at hdV
    have hdVeq : dV1 = dV := by simpa using hdV
    have hdV1vs : valStart dV1 = true := by rw [hdVeq]; exact hdVvs
    split at h
    case _ r2 hsw =>
      rcases hpi : parseItems fuel (skipWs r2) with _ | ⟨xs', r3⟩ <;>
        simp only [hpi, reduceCtorEq, Option.some.injEq, Prod.mk.injEq] at h
      obtain ⟨hxs, hr⟩ := h
      subst hxs; subst hr
      obtain ⟨cI, hdecI, ⟨dI, hdI, hdIvs⟩, hlastI, hextI⟩ := ihI _ _ _ hpi
      rcases cI with _ | ⟨dI1, cI'⟩
      · simp at hdI
      have hdIeq : dI1 = dI := by simpa using hdI
      have hdI1vs : valStart dI1 = true := by rw [hdIeq]; exact hdIvs
      refine ⟨(dV1 :: cV') ++ (rV.takeWhile jsonWs ++ ',' ::
          (r2.takeWhile jsonWs ++ (dI1 :: cI'))), ?_, ⟨dV1, by simp, hdV1vs⟩, ?_, ?_⟩
      · conv_lhs => rw [hdecV]
        conv_lhs => rw [skipWs_decomp rV, hsw, skipWs_decomp r2, hdecI]
        simp
      · refine getLast?_append_right _ (getLast?_append_right _ ?_)
        rw [show (',' :: (r2.takeWhile jsonWs ++ (dI1 :: cI')))
            = (',' :: r2.takeWhile jsonWs) ++ (dI1 :: cI') by simp]
        exact getLast?_append_right _ hlastI
      · intro g ext hg
        rcases g with _ | g
        · simp at hg
        have harV : 2 * (dV1 :: cV').length + 1 ≤ g := by
          simp only [List.length_cons, List.length_append] at hg ⊢
          omega
        have harI : 2 * (dI1 :: cI').length + 1 ≤ g := by
          simp only [List.length_cons, List.length_append] at hg ⊢
          omega
        have hgood : goodExt (rV.takeWhile jsonWs ++ ',' ::
            (r2.takeWhile jsonWs ++ (dI1 :: (cI' ++ ext)))) = true :=
          goodExt_append_ws _ List.all_takeWhile rfl
        have e1 := hextV g (rV.takeWhile jsonWs ++ ',' ::
          (r2.takeWhile jsonWs ++ (dI1 :: (cI' ++ ext)))) harV hgood
        have e2 : skipWs (rV.takeWhile jsonWs ++ ',' ::
            (r2.takeWhile jsonWs ++ (dI1 :: (cI' ++ ext))))
            = ',' :: (r2.takeWhile jsonWs ++ (dI1 :: (cI' ++ ext))) :=
          skipWs_append_stop _ List.all_takeWhile (by decide)
        have e3 : skipWs (r2.takeWhile jsonWs ++ (dI1 :: (cI' ++ ext)))
            = dI1 :: (cI' ++ ext) :=
          skipWs_append_stop _ List.all_takeWhile (valStart_not_jsonWs hdI1vs)
        have e4 : parseItems g ((dI1 :: cI') ++ ext) = some (xs', ext) :=
          hextI g ext harI
        rw [show ((dV1 :: cV') ++ (rV.takeWhile jsonWs ++ ',' ::
            (r2.takeWhile jsonWs ++ (dI1 :: cI')))) ++ ext
            = (dV1 :: cV') ++ (rV.takeWhile jsonWs ++ ',' ::
              (r2.takeWhile jsonWs ++ (dI1 :: (cI' ++ ext)))) by simp]
        simp only [List.cons_append] at e4
        rw [parseItems_eq_val g _ j _ e1, e2]
        simp only [e3, e4]
    case _ r2 hsw =>
      simp only [Option.some.injEq, Prod.mk.injEq] at h
      obtain ⟨hxs, hr⟩ := h
      subst hxs; subst hr
      refine ⟨(dV1 :: cV') ++ (rV.takeWhile jsonWs ++ [']']), ?_,
        ⟨dV1, by simp, hdV1vs⟩, ?_, ?_⟩
      · conv_lhs => rw [hdecV]
        conv_lhs => rw [skipWs_decomp rV, hsw]
        simp
      · exact getLast?_append_right _ (getLast?_append_right _ rfl)
      · intro g ext hg
        rcases g with _ | g
        · simp at hg
        have harV : 2 * (dV1 :: cV').length + 1 ≤ g := by
          simp only [List.length_cons, List.length_append] at hg ⊢
          omega
        have hgood : goodExt (rV.takeWhile jsonWs ++ ']' :: ext) = true :=
          goodExt_append_ws _ List.all_takeWhile rfl
        have e1 := hextV g (rV.takeWhile jsonWs ++ ']' :: ext) harV hgood
        have e2 : skipWs (rV.takeWhile jsonWs ++ ']' :: ext) = ']' :: ext :=
          skipWs_append_stop _ List.all_takeWhile (by decide)
        rw [show ((dV1 :: cV') ++ (rV.takeWhile jsonWs ++ [']'])) ++ ext
            = (dV1 :: cV') ++ (rV.takeWhile jsonWs ++ ']' :: ext) by simp]
        rw [parseItems_eq_val g _ j _ e1, e2]
        rfl
    case _ =>
      exact Option.noConfusion h

/-- One step of the member parser satisfies `FieldsOk`, assuming the payloads
at the smaller fuel. -/
theorem step_fields (fuel : Nat) (ihV : ValOk fuel) (ihF : FieldsOk fuel) :
    FieldsOk (fuel + 1) := by
  intro l fs r h
  rw [parseFields_eq] at h
  split at h
  case _ r0 =>
    rcases hk : parseStr (r0.length + 1) r0 with _ | ⟨k, r1⟩ <;>
      simp only [hk, reduceCtorEq] at h
    obtain ⟨cK, hdecK, hlastK, hextK⟩ := parseStr_structure _ _ _ _ hk
    split at h
    case _ r2 hsw1 =>
      rcases hvv : parseVal fuel (skipWs r2) with _ | ⟨v, r3⟩ <;>
        simp only [hvv, reduceCtorEq] at h
      obtain ⟨cV, hdecV, ⟨dV, hdV, hdVvs⟩, ⟨eV, heV, heVws⟩, hobjV, hextV⟩ := ihV _ _ _ hvv
      rcases cV with _ | ⟨dV1, cV'⟩
      · simp at hdV
      have hdVeq : dV1 = dV := by simpa using hdV
      have hdV1vs : valStart dV1 = true := by rw [hdVeq]; exact hdVvs
      split at h
      case _ r4 hsw2 =>
        rcases hpf : parseFields fuel (skipWs r4) with _ | ⟨fs', r5⟩ <;>
          simp only [hpf, reduceCtorEq, Option.some.injEq, Prod.mk.injEq] at h
        obtain ⟨hfs, hr⟩ := h
        subst hfs; subst hr
        obtain ⟨cF, hdecF, hheadF, hlastF, hextF⟩ := ihF _ _ _ hpf
        rcases cF with _ | ⟨dF1, cF'⟩
        · simp at hheadF
        have hdFeq : dF1 = '"' := by simpa using hheadF
        subst hdFeq
        refine ⟨'"' :: (cK ++ (r1.takeWhile jsonWs ++ ':' :: (r2.takeWhile jsonWs ++
            ((dV1 :: cV') ++ (r3.takeWhile jsonWs ++ ',' :: (r4.takeWhile jsonWs ++
              ('"' :: cF'))))))), ?_, rfl, ?_, ?_⟩
        · conv_lhs => rw [hdecK]
          conv_lhs => rw [skipWs_decomp r1, hsw1, skipWs_decomp r2, hdecV]
          conv_lhs => rw [skipWs_decomp r3, hsw2, skipWs_decomp r4, hdecF]
          simp
        · rw [show '"' :: (cK ++ (r1.takeWhile jsonWs ++ ':' :: (r2.takeWhile jsonWs ++
              ((dV1 :: cV') ++ (r3.takeWhile jsonWs ++ ',' :: (r4.takeWhile jsonWs ++
                ('"' :: cF')))))))
              = ('"' :: cK ++ r1.takeWhile jsonWs ++ ':' :: r2.takeWhile jsonWs ++
                (dV1 :: cV') ++ r3.takeWhile jsonWs ++ ',' :: r4.takeWhile jsonWs)
                ++ ('"' :: cF') by simp]
          exact getLast?_append_right _ hlastF
        · intro g ext hg
          rcases g with _ | g
          · simp at hg
          have harV : 2 * (dV1 :: cV').length + 1 ≤ g := by
            simp only [List.length_cons, List.length_append] at hg ⊢
            omega
          have harF : 2 * ('"' :: cF').length + 1 ≤ g := by
            simp only [List.length_cons, List.length_append] at hg ⊢
            omega
          have eK := hextK ((cK ++ (r1.takeWhile jsonWs ++ ':' :: (r2.takeWhile jsonWs ++
            ((dV1 :: cV') ++ (r3.takeWhile jsonWs ++ ',' :: (r4.takeWhile jsonWs ++
              ('"' :: (cF' ++ ext)))))))).length + 1)
            (r1.takeWhile jsonWs ++ ':' :: (r2.takeWhile jsonWs ++
              ((dV1 :: cV') ++ (r3.takeWhile jsonWs ++ ',' :: (r4.takeWhile jsonWs ++
                ('"' :: (cF' ++ ext)))))))
            (by simp)
          have e2 : skipWs (r1.takeWhile jsonWs ++ ':' :: (r2.takeWhile jsonWs ++
              ((dV1 :: cV') ++ (r3.takeWhile jsonWs ++ ',' :: (r4.takeWhile jsonWs ++
                ('"' :: (cF' ++ ext)))))))
              = ':' :: (r2.takeWhile jsonWs ++ ((dV1 :: cV') ++ (r3.takeWhile jsonWs ++
                ',' :: (r4.takeWhile jsonWs ++ ('"' :: (cF' ++ ext)))))) :=
            skipWs_append_stop _ List.all_takeWhile (by decide)
          have e3 : skipWs (r2.takeWhile jsonWs ++ ((dV1 :: cV') ++ (r3.takeWhile jsonWs
              ++ ',' :: (r4.takeWhile jsonWs ++ ('"' :: (cF' ++ ext))))))
              = (dV1 :: cV') ++ (r3.takeWhile jsonWs ++ ',' :: (r4.takeWhile jsonWs ++
                ('"' :: (cF' ++ ext)))) := by
            rw [show (dV1 :: cV') ++ (r3.takeWhile jsonWs ++ ',' :: (r4.takeWhile jsonWs
                ++ ('"' :: (cF' ++ ext))))
                = dV1 :: (cV' ++ (r3.takeWhile jsonWs ++ ',' :: (r4.takeWhile jsonWs ++
                  ('"' :: (cF' ++ ext))))) by simp]
            exact skipWs_append_stop _ List.all_takeWhile (valStart_not_jsonWs hdV1vs)
          have e4 := hextV g (r3.takeWhile jsonWs ++ ',' :: (r4.takeWhile jsonWs ++
            ('"' :: (cF' ++ ext)))) harV (goodExt_append_ws _ List.all_takeWhile rfl)
          have e5 : skipWs (r3.takeWhile jsonWs ++ ',' :: (r4.takeWhile jsonWs ++
              ('"' :: (cF' ++ ext))))
              = ',' :: (r4.takeWhile jsonWs ++ ('"' :: (cF' ++ ext))) :=
            skipWs_append_stop _ List.all_takeWhile (by decide)
          have e6 : skipWs (r4.takeWhile jsonWs ++ ('"' :: (cF' ++ ext)))
              = '"' :: (cF' ++ ext) :=
            skipWs_append_stop _ List.all_takeWhile (by decide)
          have e7 := hextF g ext harF
          simp only [List.cons_append] at e2 e3 e4 e7
          rw [show ('"' :: (cK ++ (r1.takeWhile jsonWs ++ ':' :: (r2.takeWhile jsonWs ++
              ((dV1 :: cV') ++ (r3.takeWhile jsonWs ++ ',' :: (r4.takeWhile jsonWs ++
                ('"' :: cF')))))))) ++ ext
              = '"' :: (cK ++ (r1.takeWhile jsonWs ++ ':' :: (r2.takeWhile jsonWs ++
                ((dV1 :: cV') ++ (r3.takeWhile jsonWs ++ ',' :: (r4.takeWhile jsonWs ++
                  ('"' :: (cF' ++ ext)))))))) by simp]
          rw [parseFields_cons, eK]
          simp only [e2, e3, List.cons_append, e4, e5, e6, e7]
      case _ r4 hsw2 =>
        simp only [Option.some.injEq, Prod.mk.injEq] at h
        obtain ⟨hfs, hr⟩ := h
        subst hfs; subst hr
        refine ⟨'"' :: (cK ++ (r1.takeWhile jsonWs ++ ':' :: (r2.takeWhile jsonWs ++
            ((dV1 :: cV') ++ (r3.takeWhile jsonWs ++ ['\x7d']))))), ?_, rfl, ?_, ?_⟩
        · conv_lhs => rw [hdecK]
          conv_lhs => rw [skipWs_decomp r1, hsw1, skipWs_decomp r2, hdecV]
          conv_lhs => rw [skipWs_decomp r3, hsw2]
          simp
        · rw [show '"' :: (cK ++ (r1.takeWhile jsonWs ++ ':' :: (r2.takeWhile jsonWs ++
              ((dV1 :: cV') ++ (r3.takeWhile jsonWs ++ ['\x7d'])))))
              = ('"' :: cK ++ r1.takeWhile jsonWs ++ ':' :: r2.takeWhile jsonWs ++
                (dV1 :: cV') ++ r3.takeWhile jsonWs) ++ ['\x7d'] by simp]
          exact getLast?_append_right _ rfl
        · intro g ext hg
          rcases g with _ | g
          · simp at hg
          have harV : 2 * (dV1 :: cV').length + 1 ≤ g := by
            simp only [List.length_cons, List.length_append] at hg ⊢
            omega
          have eK := hextK ((cK ++ (r1.takeWhile jsonWs ++ ':' :: (r2.takeWhile jsonWs ++
            ((dV1 :: cV') ++ (r3.takeWhile jsonWs ++ '\x7d' :: ext))))).length + 1)
            (r1.takeWhile jsonWs ++ ':' :: (r2.takeWhile jsonWs ++
              ((dV1 :: cV') ++ (r3.takeWhile jsonWs ++ '\x7d' :: ext))))
            (by simp)
          have e2 : skipWs (r1.takeWhile jsonWs ++ ':' :: (r2.takeWhile jsonWs ++
              ((dV1 :: cV') ++ (r3.takeWhile jsonWs ++ '\x7d' :: ext))))
              = ':' :: (r2.takeWhile jsonWs ++ ((dV1 :: cV') ++ (r3.takeWhile jsonWs ++
                '\x7d' :: ext))) :=
            skipWs_append_stop _ List.all_takeWhile (by decide)
          have e3 : skipWs (r2.takeWhile jsonWs ++ ((dV1 :: cV') ++ (r3.takeWhile jsonWs
              ++ '\x7d' :: ext)))
              = (dV1 :: cV') ++ (r3.takeWhile jsonWs ++ '\x7d' :: ext) := by
            rw [show (dV1 :: cV') ++ (r3.takeWhile jsonWs ++ '\x7d' :: ext)
                = dV1 :: (cV' ++ (r3.takeWhile jsonWs ++ '\x7d' :: ext)) by simp]
            exact skipWs_append_stop _ List.all_takeWhile (valStart_not_jsonWs hdV1vs)
          have e4 := hextV g (r3.takeWhile jsonWs ++ '\x7d' :: ext) harV
            (goodExt_append_ws _ List.all_takeWhile rfl)
          have e5 : skipWs (r3.takeWhile jsonWs ++ '\x7d' :: ext) = '\x7d' :: ext :=
            skipWs_append_stop _ List.all_takeWhile (by decide)
          simp only [List.cons_append] at e2 e3 e4
          rw [show ('"' :: (cK ++ (r1.takeWhile jsonWs ++ ':' :: (r2.takeWhile jsonWs ++
              ((dV1 :: cV') ++ (r3.takeWhile jsonWs ++ ['\x7d'])))))) ++ ext
              = '"' :: (cK ++ (r1.takeWhile jsonWs ++ ':' :: (r2.takeWhile jsonWs ++
                ((dV1 :: cV') ++ (r3.takeWhile jsonWs ++ '\x7d' :: ext))))) by simp]
          rw [parseFields_cons, eK]
          simp only [e2, e3, List.cons_append, e4, e5]
      case _ =>
        exact Option.noConfusion h
    case _ =>
      exact Option.noConfusion h
  case _ =>
    exact Option.noConfusion h

/-- Every fuel level satisfies all three induction payloads: parsed values
consume a prefix of the input, and parsing is stable under adding fuel and
under appending a suitable suffix. -/
theorem parse_structure (fuel : Nat) : ValOk fuel ∧ ItemsOk fuel ∧ FieldsOk fuel := by
  induction fuel with
  | zero =>
    refine ⟨?_, ?_, ?_⟩
    · intro l j r h
      rw [parseVal_zero] at h
      exact Option.noConfusion h
    · intro l xs r h
      rw [parseItems_zero] at h
      exact Option.noConfusion h
    · intro l fs r h
      rw [parseFields_zero] at h
      exact Option.noConfusion h
  | succ fuel ih =>
    exact ⟨step_val fuel ih.2.1 ih.2.2, step_items fuel ih.1 ih.2.1,
      step_fields fuel ih.1 ih.2.2⟩

/-! ## `getAIInstance`, `analyzeFinances`, `extractTransactionFromText`
(`src/services/geminiService.ts`) -/

/-- JavaScript `o || d` on an optional response text: `undefined` and the
empty string are falsy. -/
def jsOrText (o : Option String) (d : String) : String :=
  match o with
  | none => d
  | some t => if t = "" then d else t

/-- `getAIInstance`: rejects an absent, empty, or placeholder credential by
throwing `API_KEY_MISSING`; otherwise yields the instance (modelled by its
key). -/
def getAIInstance (apiKey : Option String) : Except String String :=
  match apiKey with
  | none => .error "API_KEY_MISSING"
  | some k =>
    if k = "" ∨ k = "your_gemini_api_key_here" then .error "API_KEY_MISSING"
    else .ok k

/-- `analyzeFinances`, with the model call abstracted as a stream
`backend : Nat → Except String (Option String)` giving, per invocation, either
a thrown backend error or the response whose `.text` is the optional string
(`none` for an absent text).  The result records the outcome together with the
invocation count and the backoff delays of the retry wrapper. -/
def analyzeFinances (apiKey : Option String)
    (backend : Nat → Except String (Option String)) :
    Except String Json × Nat × List Nat :=
  match getAIInstance apiKey with
  | .error e => (.error e, 0, [])
  | .ok _ =>
    retry (fun k =>
      match backend k with
      | .error e => .error e
      | .ok otext => recoverJson (jsOrText otext "\x7b\x7d")) 0 3 1000

/-- `extractTransactionFromText`, with the same backend abstraction.  An
absent or empty response text throws `NULL_RESPONSE` before recovery is
attempted; the outer handler re-throws `API_KEY_MISSING` unchanged and wraps a
falsy message as `EXTRACTION_FAILURE`. -/
def extractTransactionFromText (apiKey : Option String)
    (backend : Nat → Except String (Option String)) :
    Except String Json × Nat × List Nat :=
  match getAIInstance apiKey with
  | .error e => (.error e, 0, [])
  | .ok _ =>
    let res := retry (fun k =>
      match backend k with
      | .error e => .error e
      | .ok otext =>
        match otext with
        | none => .error "NULL_RESPONSE"
        | some t =>
          if t = "" then .error "NULL_RESPONSE" else recoverJson t) 0 3 1000
    match res.1 with
    | .ok v => (.ok v, res.2)
    | .error m =>
      if m = "API_KEY_MISSING" then (.error m, res.2)
      else if m = "" then (.error "EXTRACTION_FAILURE", res.2)
      else (.error m, res.2)

/-- C7: with a valid credential and a backend whose first response carries an
absent text, `analyzeFinances` does not fail with `EMPTY_RESPONSE`: the absent
text is replaced by the literal object text and recovered into the empty
object; `extractTransactionFromText` does fail before attempting recovery, but
with `NULL_RESPONSE`, not `EMPTY_RESPONSE`. -/
theorem empty_response_counterexample :
    analyzeFinances (some "k") (fun _ => .ok none) = (.ok (Json.obj []), 1, []) ∧
    extractTransactionFromText (some "k") (fun _ => .ok none)
      = (.error "NULL_RESPONSE", 1, []) :=
  ⟨rfl, rfl⟩

/-- C7 (amended): with a valid credential, when the first backend invocation
succeeds but its response text is absent or empty, `analyzeFinances`
substitutes the literal object text and returns the empty object after exactly
one invocation, while `extractTransactionFromText` fails with `NULL_RESPONSE`
- thrown before any recovery is attempted - after exactly one invocation,
never retried. -/
theorem absent_text_policy (key : Option String) (inst : String)
    (backend : Nat → Except String (Option String))
    (hkey : getAIInstance key = .ok inst)
    (hb : backend 0 = .ok none ∨ backend 0 = .ok (some "")) :
    analyzeFinances key backend = (.ok (Json.obj []), 1, []) ∧
    extractTransactionFromText key backend = (.error "NULL_RESPONSE", 1, []) := by
  have htext : (match backend 0 with
      | .error e => (.error e : Except String Json)
      | .ok otext => recoverJson (jsOrText otext "\x7b\x7d")) = .ok (Json.obj []) := by
    rcases hb with hb | hb <;> (rw [hb]; rfl)
  have htext2 : (match backend 0 with
      | .error e => (.error e : Except String Json)
      | .ok otext =>
        match otext with
        | none => .error "NULL_RESPONSE"
        | some t =>
          if t = "" then .error "NULL_RESPONSE" else recoverJson t)
      = .error "NULL_RESPONSE" := by
    rcases hb with hb | hb
    · rw [hb]
    · rw [hb]
      rfl
  constructor
  · unfold analyzeFinances
    rw [hkey]
    exact retry_ok _ 0 3 1000 (Json.obj []) htext
  · unfold extractTransactionFromText
    rw [hkey]
    rw [retry_stop _ 0 3 1000 "NULL_RESPONSE" htext2 (Or.inr (by decide))]
    rfl

/-- Witness for the amended C7 statement at a concrete credential and
backend. -/
theorem absent_text_policy_witness :
    analyzeFinances (some "k") (fun _ => .ok (some ""))
        = (.ok (Json.obj []), 1, []) ∧
    extractTransactionFromText (some "k") (fun _ => .ok (some ""))
        = (.error "NULL_RESPONSE", 1, []) :=
  absent_text_policy (some "k") "k" (fun _ => .ok (some "")) rfl (Or.inr rfl)

/-- C8: a missing, empty, or placeholder credential makes both service entry
points fail with `API_KEY_MISSING` after zero backend invocations and no
backoff sleeps; the message is not a rate-limit signal, and a failure carrying
it inside the retry wrapper is surfaced after that single attempt without any
re-invocation. -/
theorem api_key_missing_policy (key : Option String)
    (backend : Nat → Except String (Option String))
    (hkey : key = none ∨ key = some "" ∨ key = some "your_gemini_api_key_here") :
    analyzeFinances key backend = (.error "API_KEY_MISSING", 0, []) ∧
    extractTransactionFromText key backend = (.error "API_KEY_MISSING", 0, []) ∧
    isRateLimitErr "API_KEY_MISSING" = false ∧
    (∀ (fn : Nat → Except String Json) (k r d : Nat),
      fn k = .error "API_KEY_MISSING" →
      retry fn k r d = (.error "API_KEY_MISSING", k + 1, [])) := by
  have hinst : getAIInstance key = .error "API_KEY_MISSING" := by
    rcases hkey with h | h | h <;> subst h <;> rfl
  refine ⟨?_, ?_, by decide, ?_⟩
  · unfold analyzeFinances
    rw [hinst]
  · unfold extractTransactionFromText
    rw [hinst]
  · intro fn k r d hf
    exact retry_stop fn k r d _ hf (Or.inr (by decide))

/-- Witness for the C8 statement at a concrete absent credential, including
the retry wrapper surfacing the credential error without re-invocation. -/
theorem api_key_missing_policy_witness :
    analyzeFinances none (fun _ => .ok (some "x"))
        = (.error "API_KEY_MISSING", 0, []) ∧
    extractTransactionFromText none (fun _ => .ok (some "x"))
        = (.error "API_KEY_MISSING", 0, []) ∧
    retry (fun _ => (.error "API_KEY_MISSING" : Except String Json)) 0 3 1000
        = (.error "API_KEY_MISSING", 1, []) :=
  ⟨(api_key_missing_policy none (fun _ => .ok (some "x")) (Or.inl rfl)).1,
   (api_key_missing_policy none (fun _ => .ok (some "x")) (Or.inl rfl)).2.1,
   (api_key_missing_policy none (fun _ => .ok (some "x")) (Or.inl rfl)).2.2.2
     (fun _ => .error "API_KEY_MISSING") 0 3 1000 rfl⟩

/-! ## Fence stripping and trimming lemmas -/

/-- A pattern never matches at a mismatching head. -/
theorem listHasPre_head_ne {c p : Char} (r ps : List Char) (h : c ≠ p) :
    listHasPre (c :: r) (p :: ps) = false := by
  simp [listHasPre, h]

/-- A pattern matches at the front of itself followed by anything. -/
theorem listHasPre_append_self (p x : List Char) : listHasPre (p ++ x) p = true := by
  induction p with
  | nil => cases x <;> rfl
  | cons a as ih => simp [listHasPre, ih]

/-- Unfolding: removal from the empty list. -/
theorem removeAllF_nil (pat : List Char) : ∀ fuel, removeAllF pat fuel [] = []
  | 0 => rfl
  | _ + 1 => rfl

/-- Unfolding: one step of `removeAllF` on a nonempty list (definitional). -/
theorem removeAllF_cons (pat : List Char) (fuel : Nat) (c : Char) (r : List Char) :
    removeAllF pat (fuel + 1) (c :: r)
      = if listHasPre (c :: r) pat then removeAllF pat fuel (r.drop (pat.length - 1))
        else c :: removeAllF pat fuel r := rfl

/-- Removing a pattern is the identity when the pattern's first character never
occurs in the list. -/
theorem removeAllF_no_head (p0 : Char) (pt : List Char) (fuel : Nat) :
    ∀ l : List Char, p0 ∉ l → removeAllF (p0 :: pt) fuel l = l := by
  induction fuel with
  | zero => intro l _; rfl
  | succ fuel ih =>
    intro l h
    cases l with
    | nil => rfl
    | cons c r =>
      have hc : c ≠ p0 := fun he => h (he ▸ List.mem_cons_self c r)
      have hr : p0 ∉ r := fun hm => h (List.mem_cons_of_mem c hm)
      rw [removeAllF_cons, listHasPre_head_ne r pt hc]
      simp only [Bool.false_eq_true, if_false]
      rw [ih r hr]

/-- Stripping fences from a text without back-tick characters is the
identity. -/
theorem stripFences_id (l : List Char) (h : '\x60' ∉ l) : stripFences l = l := by
  show removeAll fenceBare (removeAll fenceJson l) = l
  rw [show removeAll fenceJson l = removeAllF ('\x60' :: ['\x60', '\x60', 'j', 's', 'o', 'n'])
      l.length l from rfl]
  rw [removeAllF_no_head _ _ _ l h]
  rw [show removeAll fenceBare l = removeAllF ('\x60' :: ['\x60', '\x60'])
      l.length l from rfl]
  rw [removeAllF_no_head _ _ _ l h]

/-- `removeAllF` for the json fence marker leaves the bare fence marker
alone (the pattern is longer than the remaining text). -/
theorem removeAllF_fence1 : ∀ fuel, removeAllF fenceJson fuel ['\x60'] = ['\x60'] := by
  intro fuel
  cases fuel with
  | zero => rfl
  | succ f =>
    rw [removeAllF_cons]
    rw [show listHasPre ['\x60'] fenceJson = false from rfl]
    simp only [Bool.false_eq_true, if_false]
    rw [removeAllF_nil]

/-- Same fact for two remaining back-ticks. -/
theorem removeAllF_fence2 : ∀ fuel,
    removeAllF fenceJson fuel ['\x60', '\x60'] = ['\x60', '\x60'] := by
  intro fuel
  cases fuel with
  | zero => rfl
  | succ f =>
    rw [removeAllF_cons]
    rw [show listHasPre ['\x60', '\x60'] fenceJson = false from rfl]
    simp only [Bool.false_eq_true, if_false]
    rw [removeAllF_fence1]

/-- Same fact for a full bare fence marker. -/
theorem removeAllF_fence3 : ∀ fuel,
    removeAllF fenceJson fuel fenceBare = fenceBare := by
  intro fuel
  cases fuel with
  | zero => rfl
  | succ f =>
    rw [show fenceBare = '\x60' :: ['\x60', '\x60'] from rfl, removeAllF_cons]
    rw [show listHasPre ['\x60', '\x60', '\x60'] fenceJson = false from rfl]
    simp only [Bool.false_eq_true, if_false]
    rw [removeAllF_fence2]

/-- Removing the json fence marker from a back-tick-free text followed by the
bare closing fence is the identity. -/
theorem removeAllF_fJ_skip (fuel : Nat) :
    ∀ l : List Char, '\x60' ∉ l →
      removeAllF fenceJson fuel (l ++ fenceBare) = l ++ fenceBare := by
  induction fuel with
  | zero => intro l _; rfl
  | succ fuel ih =>
    intro l h
    cases l with
    | nil => exact removeAllF_fence3 (fuel + 1)
    | cons c r =>
      have hc : c ≠ '\x60' := fun he => h (he ▸ List.mem_cons_self c r)
      have hr : '\x60' ∉ r := fun hm => h (List.mem_cons_of_mem c hm)
      rw [List.cons_append, removeAllF_cons]
      rw [show fenceJson = '\x60' :: ['\x60', '\x60', 'j', 's', 'o', 'n'] from rfl,
        listHasPre_head_ne _ _ hc]
      simp only [Bool.false_eq_true, if_false]
      rw [show ('\x60' :: ['\x60', '\x60', 'j', 's', 'o', 'n'])
          = fenceJson from rfl, ih r hr]

/-- Removing the bare fence marker from a back-tick-free text followed by one
closing fence removes exactly that fence. -/
theorem removeAllF_fB : ∀ (l : List Char) (fuel : Nat), '\x60' ∉ l →
    l.length + 1 ≤ fuel → removeAllF fenceBare fuel (l ++ fenceBare) = l := by
  intro l
  induction l with
  | nil =>
    intro fuel _ hf
    cases fuel with
    | zero => omega
    | succ f =>
      rw [List.nil_append, show fenceBare = '\x60' :: ['\x60', '\x60'] from rfl,
        removeAllF_cons]
      rw [show listHasPre ['\x60', '\x60', '\x60']
          ('\x60' :: ['\x60', '\x60']) = true from rfl]
      simp only [if_true]
      rw [show (['\x60', '\x60'].drop (('\x60' :: ['\x60', '\x60']).length - 1))
          = [] from rfl]
      rw [removeAllF_nil]
  | cons c r ih =>
    intro fuel h hf
    cases fuel with
    | zero => omega
    | succ f =>
      have hc : c ≠ '\x60' := fun he => h (he ▸ List.mem_cons_self c r)
      have hr : '\x60' ∉ r := fun hm => h (List.mem_cons_of_mem c hm)
      rw [List.cons_append, removeAllF_cons]
      rw [show fenceBare = '\x60' :: ['\x60', '\x60'] from rfl,
        listHasPre_head_ne _ _ hc]
      simp only [Bool.false_eq_true, if_false]
      rw [show ('\x60' :: ['\x60', '\x60']) = fenceBare from rfl, ih f hr (by
        simp only [List.length_cons] at hf
        omega)]

/-- One full removal step at an exact pattern occurrence at the front. -/
theorem removeAllF_pre (p0 : Char) (pt x : List Char) (fuel : Nat) :
    removeAllF (p0 :: pt) (fuel + 1) (p0 :: (pt ++ x)) = removeAllF (p0 :: pt) fuel x := by
  have hpre : listHasPre (p0 :: (pt ++ x)) (p0 :: pt) = true := by
    have h := listHasPre_append_self (p0 :: pt) x
    simpa using h
  rw [show p0 :: (pt ++ x) = (p0 :: pt) ++ x from rfl]
  rw [show (p0 :: pt) ++ x = p0 :: (pt ++ x) from rfl, removeAllF_cons, hpre]
  simp only [if_true]
  rw [List.length_cons, Nat.add_sub_cancel, List.drop_left]

/-- Stripping fences from a fence-wrapped back-tick-free text recovers the
text. -/
theorem stripFences_fenced (l : List Char) (h : '\x60' ∉ l) :
    stripFences (fenceJson ++ (l ++ fenceBare)) = l := by
  have h1 : removeAll fenceJson (fenceJson ++ (l ++ fenceBare)) = l ++ fenceBare := by
    show removeAllF fenceJson (fenceJson ++ (l ++ fenceBare)).length
        (fenceJson ++ (l ++ fenceBare)) = l ++ fenceBare
    rw [show (fenceJson ++ (l ++ fenceBare)).length = ((l ++ fenceBare).length + 6) + 1 by
      simp [fenceJson]]
    rw [show fenceJson ++ (l ++ fenceBare)
        = '\x60' :: (['\x60', '\x60', 'j', 's', 'o', 'n'] ++ (l ++ fenceBare)) from rfl]
    rw [show removeAllF fenceJson ((l ++ fenceBare).length + 6 + 1)
          ('\x60' :: (['\x60', '\x60', 'j', 's', 'o', 'n'] ++ (l ++ fenceBare)))
        = removeAllF ('\x60' :: ['\x60', '\x60', 'j', 's', 'o', 'n'])
          ((l ++ fenceBare).length + 6 + 1)
          ('\x60' :: (['\x60', '\x60', 'j', 's', 'o', 'n'] ++ (l ++ fenceBare))) from rfl]
    rw [removeAllF_pre]
    exact removeAllF_fJ_skip _ l h
  show removeAll fenceBare (removeAll fenceJson (fenceJson ++ (l ++ fenceBare))) = l
  rw [h1]
  show removeAllF fenceBare (l ++ fenceBare).length (l ++ fenceBare) = l
  exact removeAllF_fB l _ h (by simp [fenceBare])

/-- `dropWhile` is the identity on a list whose head falsifies the
predicate. -/
theorem dropWhile_head?_false {p : Char → Bool} {l : List Char} {c : Char}
    (hh : l.head? = some c) (hc : p c = false) : l.dropWhile p = l := by
  cases l with
  | nil => simp at hh
  | cons a r =>
    have : a = c := by simpa using hh
    subst this
    exact dropWhile_cons_false r hc

/-- JavaScript `trim` is the identity when neither end is whitespace. -/
theorem jsTrim_id {l : List Char} {a z : Char} (hh : l.head? = some a)
    (ha : jsWs a = false) (hz : l.getLast? = some z) (hzw : jsWs z = false) :
    jsTrim l = l := by
  show ((l.dropWhile jsWs).reverse.dropWhile jsWs).reverse = l
  rw [dropWhile_head?_false hh ha]
  rw [dropWhile_head?_false (by rw [List.head?_reverse]; exact hz) hzw]
  exact List.reverse_reverse l

/-- JavaScript `trim` of an all-whitespace text is empty. -/
theorem jsTrim_all_ws {l : List Char} (h : ∀ c ∈ l, jsWs c = true) : jsTrim l = [] := by
  show ((l.dropWhile jsWs).reverse.dropWhile jsWs).reverse = []
  rw [List.dropWhile_eq_nil_iff.mpr h]
  rfl

/-! ## Branch lemmas for `recoverJson` -/

/-- `recoverJson` when the cleaned text parses directly. -/
theorem recoverJson_direct (text : String) (v : Json)
    (hne : text ≠ "")
    (hparse : parseJson (jsTrim (stripFences text.toList)) = some v) :
    recoverJson text = .ok v := by
  simp only [recoverJson, hparse, if_neg hne]

/-- `recoverJson` when the direct parse fails and a proper span is found:
the repaired span is re-parsed. -/
theorem recoverJson_span (text : String) (s e : Nat) (v : Json)
    (hne : text ≠ "")
    (hparse : parseJson (jsTrim (stripFences text.toList)) = none)
    (hfi : firstIdx (jsTrim (stripFences text.toList)) '\x7b' = some s)
    (hli : lastIdx (jsTrim (stripFences text.toList)) '\x7d' = some e)
    (hlt : s < e)
    (hfix : parseJson (fixCommas
        (((jsTrim (stripFences text.toList)).drop s).take (e + 1 - s))) = some v) :
    recoverJson text = .ok v := by
  simp only [recoverJson, hparse, hfi, hli, hfix, if_neg hne, if_pos hlt]

/-- `recoverJson` when the direct parse fails and no opening brace occurs. -/
theorem recoverJson_nodata (text : String)
    (hne : text ≠ "")
    (hparse : parseJson (jsTrim (stripFences text.toList)) = none)
    (hfi : firstIdx (jsTrim (stripFences text.toList)) '\x7b' = none) :
    recoverJson text = .error "NO_DATA_FOUND" := by
  simp only [recoverJson, hparse, hfi, if_neg hne]

/-- `indexOf` finds the head immediately. -/
theorem firstIdx_head (c : Char) (l : List Char) : firstIdx (c :: l) c = some 0 := by
  show List.findIdx? (fun x => x = c) (c :: l) = some 0
  rw [List.findIdx?_cons]
  simp

/-- `indexOf` misses a character that does not occur. -/
theorem firstIdx_none {l : List Char} {c : Char} (h : c ∉ l) : firstIdx l c = none := by
  show List.findIdx? (fun x => x = c) l = none
  refine List.findIdx?_eq_none_iff.mpr ?_
  intro x hx
  simp only [decide_eq_false_iff_not]
  exact fun he => h (he ▸ hx)

/-- `lastIndexOf` of the closing brace over a span ending in one, followed by
trailing text without one: the position of that closing brace. -/
theorem lastIdx_append {core prose : List Char} (hlast : core.getLast? = some '\x7d')
    (hbr : '\x7d' ∉ prose) : lastIdx (core ++ prose) '\x7d' = some (core.length - 1) := by
  obtain ⟨core', hc⟩ := List.getLast?_eq_some_iff.mp hlast
  subst hc
  have h1 : List.findIdx? (fun x => x = '\x7d') prose.reverse = none := by
    refine List.findIdx?_eq_none_iff.mpr ?_
    intro x hx
    rw [List.mem_reverse] at hx
    simp only [decide_eq_false_iff_not]
    exact fun he => hbr (he ▸ hx)
  show (List.findIdx? (fun x => x = '\x7d') ((core' ++ ['\x7d']) ++ prose).reverse).map
      (fun i => ((core' ++ ['\x7d']) ++ prose).length - 1 - i)
      = some ((core' ++ ['\x7d']).length - 1)
  rw [show ((core' ++ ['\x7d']) ++ prose).reverse
      = prose.reverse ++ ('\x7d' :: core'.reverse) by simp]
  rw [List.findIdx?_append, h1, List.findIdx?_cons, if_pos (by simp)]
  simp only [Option.none_or, Option.map_some', List.length_append, List.length_reverse,
    List.length_cons]
  refine congrArg some ?_
  omega

/-- JSON whitespace is JavaScript whitespace. -/
theorem jsWs_of_jsonWs {c : Char} (h : jsonWs c = true) : jsWs c = true := by
  simp only [jsonWs, decide_eq_true_eq] at h
  simp only [jsWs]
  rcases h with rfl | rfl | rfl | rfl <;> rfl

/-! ## C6: the failure taxonomy of `recoverJson` -/

/-- C6: the whitespace-only text is reported as `NO_DATA_FOUND`, not as
`EMPTY_RESPONSE`: only the strictly empty text takes the fail-fast branch. -/
theorem whitespace_empty_counterexample :
    recoverJson "   " = .error "NO_DATA_FOUND" := rfl

/-- C6 (amended): the strictly empty text fails with `EMPTY_RESPONSE`; a
nonempty all-whitespace text fails with `NO_DATA_FOUND`; a nonempty text
whose cleaned form neither parses nor contains an opening brace fails with
`NO_DATA_FOUND`; in particular so does a text with no JSON at all. -/
theorem no_data_policy :
    recoverJson "" = .error "EMPTY_RESPONSE" ∧
    (∀ s : String, s ≠ "" → (∀ c ∈ s.toList, jsWs c = true) →
      recoverJson s = .error "NO_DATA_FOUND") ∧
    (∀ s : String, s ≠ "" →
      parseJson (jsTrim (stripFences s.toList)) = none →
      '\x7b' ∉ jsTrim (stripFences s.toList) →
      recoverJson s = .error "NO_DATA_FOUND") ∧
    recoverJson "no json here" = .error "NO_DATA_FOUND" := by
  refine ⟨rfl, ?_, ?_, rfl⟩
  · intro s hne hws
    have h60 : '\x60' ∉ s.toList := fun hm => absurd (hws _ hm) (by decide)
    have hstrip : stripFences s.toList = s.toList := stripFences_id _ h60
    have htrim : jsTrim s.toList = [] := jsTrim_all_ws hws
    refine recoverJson_nodata s hne ?_ ?_
    · rw [hstrip, htrim]
      rfl
    · rw [hstrip, htrim]
      rfl
  · intro s hne hparse hmem
    exact recoverJson_nodata s hne hparse (firstIdx_none hmem)

/-- Witness for the amended C6 statement: the whitespace-only branch at a
concrete text, and the no-brace branch at a text that parses as nothing. -/
theorem no_data_policy_witness :
    recoverJson "\t \t" = .error "NO_DATA_FOUND" ∧
    recoverJson "true false" = .error "NO_DATA_FOUND" :=
  ⟨no_data_policy.2.1 "\t \t" (by decide) (by decide),
   no_data_policy.2.2.1 "true false" (by decide) rfl (by decide)⟩

/-! ## C5: what `recoverJson` recovers -/

/-- C5 counterexample: (1) a valid JSON object whose string value consists of
back-ticks is corrupted by fence stripping (the embedded value is lost); (2)
trailing prose containing a closing brace makes recovery fail with
`MALFORMED_DATA`; (3) with trailing prose forcing the span path, the
trailing-comma repair corrupts a string value containing a comma-brace
sequence. -/
theorem recover_counterexample :
    parseJson (String.toList "\x7b\"a\":\"\x60\x60\x60\"\x7d")
        = some (Json.obj [("a", Json.str "\x60\x60\x60")]) ∧
    recoverJson "\x7b\"a\":\"\x60\x60\x60\"\x7d" = .ok (Json.obj [("a", Json.str "")]) ∧
    recoverJson "\x7b\"a\":1\x7d note\x7d" = .error "MALFORMED_DATA" ∧
    parseJson (String.toList "\x7b\"a\":\", \x7d\"\x7d")
        = some (Json.obj [("a", Json.str ", \x7d")]) ∧
    recoverJson "\x7b\"a\":\", \x7d\"\x7d zz" = .ok (Json.obj [("a", Json.str "\x7d")]) :=
  ⟨rfl, rfl, rfl, rfl, rfl⟩

/-- C5 (amended): recovery is faithful on back-tick-free texts.  (1) A text
whose trimmed form parses is returned unchanged; (2) a fence-wrapped
back-tick-free body whose trimmed form parses is returned unchanged; (3) an
object followed by whitespace-led trailing prose containing no closing brace
is recovered exactly when the trailing-comma repair fixes nothing inside the
object; (4) the trailing-comma example of the claim holds. -/
theorem recover_policy :
    (∀ (s : String) (j : Json), '\x60' ∉ s.toList →
      parseJson (jsTrim s.toList) = some j → recoverJson s = .ok j) ∧
    (∀ (body : List Char) (j : Json), '\x60' ∉ body →
      parseJson (jsTrim body) = some j →
      recoverJson (String.mk (fenceJson ++ (body ++ fenceBare))) = .ok j) ∧
    (∀ (core prose : List Char) (fs : List (String × Json)) (w z : Char),
      parseJson core = some (Json.obj fs) →
      core.head? = some '\x7b' → core.getLast? = some '\x7d' →
      '\x60' ∉ core → '\x60' ∉ prose →
      prose.head? = some w → jsonWs w = true →
      prose.getLast? = some z → jsWs z = false →
      '\x7d' ∉ prose →
      fixCommas core = core →
      recoverJson (String.mk (core ++ prose)) = .ok (Json.obj fs)) ∧
    recoverJson "\x7b\"a\":1,\x7d" = .ok (Json.obj [("a", Json.num 1 0)]) := by
  refine ⟨?_, ?_, ?_, rfl⟩
  · intro s j h60 hp
    have hne : s ≠ "" := by
      intro he
      rw [he] at hp
      exact Option.noConfusion hp
    refine recoverJson_direct s j hne ?_
    rw [stripFences_id _ h60]
    exact hp
  · intro body j h60 hp
    have hne : String.mk (fenceJson ++ (body ++ fenceBare)) ≠ "" := by
      intro he
      have h2 : fenceJson ++ (body ++ fenceBare) = ([] : List Char) :=
        congrArg String.toList he
      simp [fenceJson] at h2
    refine recoverJson_direct _ j hne ?_
    rw [show (String.mk (fenceJson ++ (body ++ fenceBare))).toList
        = fenceJson ++ (body ++ fenceBare) from rfl]
    rw [stripFences_fenced _ h60]
    exact hp
  · intro core prose fs w z hp hhead hlast h60c h60p hw hwws hz hzws hbr hfixc
    rcases core with _ | ⟨a, ct⟩
    · simp at hhead
    have ha : a = '\x7b' := by simpa using hhead
    subst ha
    have hp0 := hp
    have hskip : skipWs ('\x7b' :: ct) = '\x7b' :: ct :=
      dropWhile_cons_false ct (by decide)
    simp only [parseJson] at hp
    rw [hskip] at hp
    rcases hpv : parseVal (2 * ('\x7b' :: ct).length + 2) ('\x7b' :: ct) with _ | ⟨j, r⟩
    · rw [hpv] at hp
      exact Option.noConfusion hp
    rw [hpv] at hp
    replace hp : (if (skipWs r).isEmpty then some j else none)
        = some (Json.obj fs) := hp
    rcases hie : (skipWs r).isEmpty with _ | _
    · rw [hie] at hp
      simp at hp
    rw [hie] at hp
    simp only [if_true, Option.some.injEq] at hp
    subst hp
    obtain ⟨c, hdec, _, _, hobj, hext⟩ :=
      (parse_structure (2 * ('\x7b' :: ct).length + 2)).1 _ _ _ hpv
    have hr : r = [] := by
      by_contra hrne
      have hall : ∀ x ∈ r, jsonWs x = true := by
        have hnil : List.dropWhile jsonWs r = [] := by
          cases hsw : List.dropWhile jsonWs r with
          | nil => rfl
          | cons b t =>
            rw [show skipWs r = List.dropWhile jsonWs r from rfl, hsw] at hie
            simp at hie
        exact List.dropWhile_eq_nil_iff.mp hnil
      obtain ⟨x, hx, hxws⟩ := getLast?_all hrne (List.all_eq_true.mpr hall)
      have h1 := getLast?_append_right c hx
      rw [hdec] at hlast
      rw [h1] at hlast
      have hxe : x = '\x7d' := by simpa using hlast
      subst hxe
      exact absurd hxws (by decide)
    subst hr
    rw [List.append_nil] at hdec
    subst hdec
    have hgood : goodExt prose = true := by
      cases hpr : prose with
      | nil => rfl
      | cons b pt =>
        rw [hpr] at hw
        have hb : b = w := by simpa using hw
        subst hb
        simp [goodExt, jsonWs_not_numExt hwws]
    have harith : 2 * ('\x7b' :: ct).length + 1
        ≤ 2 * (('\x7b' :: ct) ++ prose).length + 2 := by
      simp only [List.length_append, List.length_cons]
      omega
    have hpe := hext (2 * (('\x7b' :: ct) ++ prose).length + 2) prose harith hgood
    have hskip2 : skipWs (('\x7b' :: ct) ++ prose) = ('\x7b' :: ct) ++ prose :=
      dropWhile_cons_false _ (by decide)
    have hsne : skipWs prose ≠ [] := by
      intro hnil
      have hall := List.dropWhile_eq_nil_iff.mp hnil
      obtain ⟨p', hp'⟩ := List.getLast?_eq_some_iff.mp hz
      have hzmem : z ∈ prose := by
        rw [hp']
        simp
      exact absurd (jsWs_of_jsonWs (hall z hzmem)) (by simp [hzws])
    have hiep : (skipWs prose).isEmpty = false := by
      cases hsp : skipWs prose with
      | nil => exact absurd hsp hsne
      | cons b t => rfl
    have hpj : parseJson (('\x7b' :: ct) ++ prose) = none := by
      simp only [parseJson]
      rw [hskip2, hpe]
      show (if (skipWs prose).isEmpty then some (Json.obj fs) else none) = none
      simp [hiep]
    have hfi : firstIdx (('\x7b' :: ct) ++ prose) '\x7b' = some 0 := firstIdx_head _ _
    have hli : lastIdx (('\x7b' :: ct) ++ prose) '\x7d'
        = some (('\x7b' :: ct).length - 1) := lastIdx_append hlast hbr
    have hctne : ct ≠ [] := by
      intro he
      rw [he] at hlast
      simp at hlast
    have hlt : 0 < ('\x7b' :: ct).length - 1 := by
      cases ct with
      | nil => exact absurd rfl hctne
      | cons _ _ =>
        simp only [List.length_cons]
        omega
    have hspan : ((('\x7b' :: ct) ++ prose).drop 0).take
        (('\x7b' :: ct).length - 1 + 1 - 0) = '\x7b' :: ct := by
      rw [List.drop_zero]
      rw [show ('\x7b' :: ct).length - 1 + 1 - 0 = ('\x7b' :: ct).length by
        simp only [List.length_cons]
        omega]
      exact List.take_left _ _
    have h60 : '\x60' ∉ ('\x7b' :: ct) ++ prose := by
      intro hm
      rcases List.mem_append.mp hm with hm | hm
      · exact h60c hm
      · exact h60p hm
    have hne : String.mk (('\x7b' :: ct) ++ prose) ≠ "" := by
      intro he
      have h2 : ('\x7b' :: ct) ++ prose = ([] : List Char) := congrArg String.toList he
      simp at h2
    have htl : (String.mk (('\x7b' :: ct) ++ prose)).toList
        = ('\x7b' :: ct) ++ prose := rfl
    have htrim : jsTrim (('\x7b' :: ct) ++ prose) = ('\x7b' :: ct) ++ prose :=
      jsTrim_id (head?_append_left prose rfl) (by decide)
        (getLast?_append_right _ hz) hzws
    refine recoverJson_span _ 0 (('\x7b' :: ct).length - 1) (Json.obj fs) hne ?_ ?_ ?_
      hlt ?_
    · rw [htl, stripFences_id _ h60, htrim]
      exact hpj
    · rw [htl, stripFences_id _ h60, htrim]
      exact hfi
    · rw [htl, stripFences_id _ h60, htrim]
      exact hli
    · rw [htl, stripFences_id _ h60, htrim, hspan, hfixc]
      exact hp0

/-- Witness for the amended C5 statement: one direct text, one fence-wrapped
body, and one object followed by trailing prose. -/
theorem recover_policy_witness :
    recoverJson "\x7b\"b\":2\x7d" = .ok (Json.obj [("b", Json.num 2 0)]) ∧
    recoverJson (String.mk (fenceJson ++ (String.toList "true" ++ fenceBare)))
        = .ok (Json.bool true) ∧
    recoverJson (String.mk (String.toList "\x7b\"c\":3\x7d" ++ String.toList " ok"))
        = .ok (Json.obj [("c", Json.num 3 0)]) :=
  ⟨recover_policy.1 "\x7b\"b\":2\x7d" (Json.obj [("b", Json.num 2 0)]) (by decide) rfl,
   recover_policy.2.1 (String.toList "true") (Json.bool true) (by decide) rfl,
   recover_policy.2.2.1 (String.toList "\x7b\"c\":3\x7d") (String.toList " ok")
     [("c", Json.num 3 0)] ' ' 'k' rfl rfl rfl (by decide) (by decide) rfl (by decide)
     rfl (by decide) (by decide) rfl⟩

end SmartSpend
